import Mathlib

/-!
Verification of the Civet language-server editing core: the import/export
specifier scanner, the incremental file-dependency graph, the file-move
rename builder, the symbol-rename resolver, and the will-rename
orchestration.  Source text is modelled as `List Char`; JavaScript string
indexing, `indexOf`, `substring` and regular-expression character classes
are translated explicitly.  Loops whose index jumps forward are modelled
with an explicit fuel argument that is always supplied large enough
(each iteration advances the index by at least one, so `length + 1`
iterations always suffice); the exhaustion branch mirrors the loop's
normal exit and is unreachable at the supplied fuel.
-/

namespace Civet

/-- JavaScript `/\s/` on the characters that occur in this code base
(ASCII whitespace). -/
def isWs (c : Char) : Bool :=
  c = ' ' || c = '\t' || c = '\n' || c = '\r' || c = '\x0b' || c = '\x0c'

/-- JavaScript `/\w/`: `[A-Za-z0-9_]`. -/
def isWordChar (c : Char) : Bool :=
  c.isAlpha || c.isDigit || c = '_'

/-- Character at index `i`, `none` when out of range (JS `content[i]` being
`undefined`). -/
def charAt (l : List Char) (i : Nat) : Option Char :=
  l.get? i

/-- Character at index `i` with a default placeholder for out-of-range
access; used only where the scanner has already checked `i < l.length`. -/
def charD (l : List Char) (i : Nat) : Char :=
  l.getD i ' '

/-- Whether the pattern `pat` occurs at index `i` (JS
`content.substring(i, i + pat.length) === pat`). -/
def substrAt (l : List Char) (i : Nat) (pat : List Char) : Bool :=
  pat.isPrefixOf (l.drop i)

/-- Index (relative to the start of the suffix) of the first occurrence of
`pat`, scanning left to right. -/
def indexOfAux (pat : List Char) : List Char → Option Nat
  | [] => if pat.isEmpty then some 0 else none
  | c :: r =>
    if pat.isPrefixOf (c :: r) then some 0
    else (indexOfAux pat r).map (· + 1)

/-- JS `content.indexOf(pat, i)` (with `none` for `-1`). -/
def indexOfFrom (l : List Char) (pat : List Char) (i : Nat) : Option Nat :=
  (indexOfAux pat (l.drop i)).map (· + i)

/-- Number of leading characters of `l` satisfying `p`. -/
def countWhile (p : Char → Bool) : List Char → Nat
  | [] => 0
  | c :: r => if p c then countWhile p r + 1 else 0

/-- JS `while (i < len && /\s/.test(content[i])) i++`. -/
def skipWsFrom (l : List Char) (i : Nat) : Nat :=
  i + countWhile isWs (l.drop i)

/-- JS `content.substring(a, b)` for `a ≤ b` (clamped at the end of the
text, as in JS). -/
def seg (l : List Char) (a b : Nat) : List Char :=
  (l.drop a).take (b - a)

/-! ## Specifier scanner (`civet-parser`, `findAllImports` revision with
comment/string protection and export handling) -/

/-- The scanner's two keywords. -/
def importKw : List Char := "import".toList

/-- The `export` keyword as scanned text. -/
def exportKw : List Char := "export".toList

/-- Whether an optional character is a `/\w/` word character (a JS
out-of-range access is `undefined`, which fails the test). -/
def isWordCharO : Option Char → Bool
  | some c => isWordChar c
  | none => false

/-- Whether an optional character is `/\s/` whitespace (a JS out-of-range
access is `undefined`, which fails the test). -/
def isWsO : Option Char → Bool
  | some c => isWs c
  | none => false

/-- `isRealKeyword`: the keyword is not part of a longer word. -/
def isRealKeyword (l : List Char) (index : Nat) (kw : List Char) : Bool :=
  if index > 0 && isWordCharO (charAt l (index - 1)) then
    false
  else
    match charAt l (index + kw.length) with
    | none => true
    | some c => !(isWordChar c)

/-- Loop body of `isInCommentOrString`: state is the index `i`, the
current string delimiter (if inside a string) and the escape flag. -/
def inCSGo (l : List Char) (pos : Nat) :
    Nat → Nat → Option Char → Bool → Bool
  | 0, _, inString, _ => inString.isSome
  | fuel + 1, i, inString, esc =>
    if i < pos ∧ i < l.length then
      let c := charD l i
      if inString.isSome ∧ esc then
        inCSGo l pos fuel (i + 1) inString false
      else if inString.isSome then
        if c = '\\' then inCSGo l pos fuel (i + 1) inString true
        else if some c = inString then inCSGo l pos fuel (i + 1) none false
        else inCSGo l pos fuel (i + 1) inString false
      else if c = '"' ∨ c = '\'' ∨ c = '`' then
        inCSGo l pos fuel (i + 1) (some c) false
      else if c = '/' ∧ charAt l (i + 1) = some '/' then
        match indexOfFrom l ['\n'] i with
        | none => true
        | some nl => if pos < nl then true else inCSGo l pos fuel (nl + 1) inString esc
      else if c = '/' ∧ charAt l (i + 1) = some '*' then
        match indexOfFrom l ['*', '/'] (i + 2) with
        | none => true
        | some e => if pos < e + 2 then true else inCSGo l pos fuel (e + 2) inString esc
      else
        inCSGo l pos fuel (i + 1) inString esc
    else
      inString.isSome

/-- `isInCommentOrString(content, pos)`: whether `pos` falls inside a
string/template literal or a line/block comment of the preceding text. -/
def isInCommentOrString (l : List Char) (pos : Nat) : Bool :=
  inCSGo l pos (pos + 1) 0 none false

/-- Kind of an `ImportMatch`: `'from'` or `'side-effect'`. -/
inductive ImpKind where
  | fromKind : ImpKind
  | sideEffect : ImpKind
deriving Repr, DecidableEq

/-- `ImportMatch`: specifier text (between the quotes), offset and length
of the quoted token, and the match kind. -/
structure ImportMatch where
  spec : List Char
  offset : Nat
  length : Nat
  type : ImpKind
deriving Repr, DecidableEq

/-- Escape-aware scan for the end of a quoted specifier relative to the
character after the opening quote: JS
`while (specEnd < len && content[specEnd] !== q) { if (content[specEnd] === '\\') specEnd++; specEnd++ }`. -/
def specEndIdx (q : Char) : List Char → Nat
  | [] => 0
  | c :: r =>
    if c = q then 0
    else if c = '\\' then
      match r with
      | [] => 2
      | _ :: r2 => 2 + specEndIdx q r2
    else 1 + specEndIdx q r

/-- The specifier-capture step of the inner scan: the quoted token at
index `i` (where the text holds a quote character), the produced match
and the index after the closing quote. -/
def captureSpec (l : List Char) (i : Nat) (foundFrom pse : Bool) : ImportMatch × Nat :=
  let specStart := i + 1
  let specEnd := specStart + specEndIdx (charD l i) (l.drop specStart)
  let spec := seg l specStart specEnd
  let ty := if foundFrom then ImpKind.fromKind
            else if pse then ImpKind.sideEffect else ImpKind.fromKind
  (⟨spec, i, specEnd - specStart + 2, ty⟩, specEnd + 1)

/-- Inner statement scan of `findAllImports`: from index `i` after a
validated keyword, with brace level, `foundFrom` and
`potentialSideEffect` state.  Returns the produced match (if any) and the
index at which the outer loop resumes. -/
def faiInner (l : List Char) :
    Nat → Nat → Int → Bool → Bool → Option ImportMatch × Nat
  | 0, i, _, _, _ => (none, i)
  | fuel + 1, i, braceLevel, foundFrom, pse =>
    if i < l.length then
      let c := charD l i
      if isWs c then
        faiInner l fuel (i + 1) braceLevel foundFrom pse
      else if c = '/' ∧ charAt l (i + 1) = some '/' then
        faiInner l fuel (match indexOfFrom l ['\n'] i with
                         | some nl => nl
                         | none => l.length) braceLevel foundFrom pse
      else if c = '/' ∧ charAt l (i + 1) = some '*' then
        faiInner l fuel ((match indexOfFrom l ['*', '/'] (i + 2) with
                          | some e => e
                          | none => l.length) + 2) braceLevel foundFrom pse
      else if c = '{' then
        faiInner l fuel (i + 1) (braceLevel + 1) foundFrom false
      else if c = '}' then
        faiInner l fuel (i + 1) (braceLevel - 1) foundFrom pse
      else if braceLevel = 0 && substrAt l i "from".toList
              && !(i == 0) && isWsO (charAt l (i - 1))
              && isWsO (charAt l (i + 4)) then
        faiInner l fuel (i + 4) braceLevel true false
      else if c = '*' then
        faiInner l fuel (i + 1) braceLevel foundFrom false
      else if c = '\'' ∨ c = '"' then
        let cap := captureSpec l i foundFrom pse
        (some cap.1, cap.2)
      else
        let pse2 := if isWordChar c then false else pse
        if c = ';' ∨ c = '\n' then (none, i)
        else faiInner l fuel (i + 1) braceLevel foundFrom pse2
    else
      (none, i)

/-- The earlier of the next `import` / `export` occurrence at or after
`i`, with the keyword found there. -/
def nextKeyword (l : List Char) (i : Nat) : Option (Nat × List Char) :=
  match indexOfFrom l importKw i, indexOfFrom l exportKw i with
  | some a, some b => if a < b then some (a, importKw) else some (b, exportKw)
  | some a, none => some (a, importKw)
  | none, some b => some (b, exportKw)
  | none, none => none

/-- The statement scan launched after a validated keyword: skip
whitespace, skip an optional `type` keyword and its trailing whitespace,
then run the inner scan. -/
def faiStep (l : List Char) (kIdx : Nat) (kw : List Char) : Option ImportMatch × Nat :=
  let i1 := skipWsFrom l (kIdx + kw.length)
  let i2 := if substrAt l i1 "type".toList then skipWsFrom l (i1 + 4) else i1
  faiInner l (l.length + 1) i2 0 false true

/-- Outer loop of `findAllImports`: find the next keyword, validate it
(not part of a word, not inside a comment or string), skip whitespace and
an optional `type` keyword, then run the statement scan. -/
def faiOuter (l : List Char) : Nat → Nat → List ImportMatch
  | 0, _ => []
  | fuel + 1, i =>
    match nextKeyword l i with
    | none => []
    | some (kIdx, kw) =>
      if ¬ isRealKeyword l kIdx kw ∨ isInCommentOrString l kIdx then
        faiOuter l fuel (kIdx + 1)
      else
        match faiStep l kIdx kw with
        | (some m, ni) => m :: faiOuter l fuel ni
        | (none, ni) => faiOuter l fuel ni

/-- `findAllImports(content)`: every import/export module specifier of
the text, in source order. -/
def findAllImports (l : List Char) : List ImportMatch :=
  faiOuter l (l.length + 1) 0

/-- `findAllImports` on a `String`. -/
def findAllImportsS (s : String) : List ImportMatch :=
  findAllImports s.toList

/-- `stripQuotes(text)`. -/
def stripQuotes (l : List Char) : List Char :=
  match l with
  | [] => l
  | c :: _ =>
    if (c = '"' ∧ l.getLast? = some '"') ∨ (c = '\'' ∧ l.getLast? = some '\'') then
      (l.drop 1).take (l.length - 2)
    else l

/-- Split at every occurrence of a character (JS `s.split(c)` /
`String.prototype.split` semantics; kernel-reducible replacement for
`String.splitOn`). -/
def splitChar (c : Char) : List Char → List (List Char)
  | [] => [[]]
  | x :: r =>
    match splitChar c r with
    | [] => [[]]
    | g :: gs => if x = c then [] :: g :: gs else (x :: g) :: gs

/-- Path split at slashes. -/
def splitSlash (s : String) : List String :=
  (splitChar '/' s.toList).map String.mk

/-- `s.startsWith(pre)` (kernel-reducible). -/
def startsWithS (s pre : String) : Bool :=
  pre.toList.isPrefixOf s.toList

/-- `s.endsWith(suf)` (kernel-reducible). -/
def endsWithS (s suf : String) : Bool :=
  suf.toList.isSuffixOf s.toList

/-! ## POSIX path primitives

The server manipulates paths through Node's `path` module (an external
library): `normalize`, `resolve`, `dirname`, `extname`, `relative`.
These are modelled here for slash-separated POSIX paths, which is the
shape of every path this core handles. -/

namespace NodePath

/-- Segment-stack processing shared by `normalize`: drops empty and `.`
segments, resolves `..` against the stack (absolute paths drop `..` at the
root, relative paths keep it). -/
def normSegs (absolute : Bool) : List String → List String → List String
  | acc, [] => acc.reverse
  | acc, s :: r =>
    if s = "" ∨ s = "." then normSegs absolute acc r
    else if s = ".." then
      match acc with
      | [] => if absolute then normSegs absolute [] r else normSegs absolute [".."] r
      | t :: acc2 =>
        if t = ".." then normSegs absolute (".." :: t :: acc2) r
        else normSegs absolute acc2 r
    else normSegs absolute (s :: acc) r

/-- Modelled from Node `path.normalize` (POSIX). -/
def normalize (p : String) : String :=
  let abs := startsWithS p "/"
  let segs := normSegs abs [] (splitSlash p)
  if abs then "/" ++ String.intercalate ("/") segs
  else if segs.isEmpty then "." else String.intercalate ("/") segs

/-- Modelled from Node `path.resolve(dir, spec)` with `dir` absolute. -/
def resolve (dir spec : String) : String :=
  if startsWithS spec "/" then normalize spec
  else normalize (dir ++ "/" ++ spec)

/-- Modelled from Node `path.dirname` (POSIX). -/
def dirname (p : String) : String :=
  let segs := (splitSlash p).dropLast
  if segs = [] then "."
  else if segs = [""] then "/"
  else String.intercalate ("/") segs

/-- Index of the last occurrence of `c`. -/
def lastIdxOf (c : Char) : List Char → Option Nat
  | [] => none
  | x :: r =>
    match lastIdxOf c r with
    | some i => some (i + 1)
    | none => if x = c then some 0 else none

/-- Modelled from Node `path.extname` (POSIX): the extension of the last
path segment, empty when the segment has no dot past its first character. -/
def extname (p : String) : String :=
  let base := match (splitSlash p).getLast? with
              | some b => b
              | none => ""
  let l := base.toList
  match lastIdxOf '.' l with
  | some i => if i = 0 then "" else String.mk (l.drop i)
  | none => ""

/-- Non-empty segments of a path. -/
def segsOf (p : String) : List String :=
  (splitSlash p).filter (fun s => s ≠ "")

/-- Drop the common prefix of two segment lists. -/
def dropCommon : List String → List String → List String × List String
  | a :: f, b :: t =>
    if a = b then dropCommon f t else (a :: f, b :: t)
  | f, t => (f, t)

/-- Modelled from Node `path.relative(from, to)` (POSIX) on absolute
paths: `..` for each remaining `from` segment, then the remaining `to`
segments. -/
def relative (fromP toP : String) : String :=
  let rest := dropCommon (segsOf (normalize fromP)) (segsOf (normalize toP))
  String.intercalate ("/") (rest.1.map (fun _ => "..") ++ rest.2)

end NodePath

/-- JS `s.replace(/\\/g, '/')`. -/
def backslashToSlash (s : String) : String :=
  String.mk (s.toList.map (fun c => if c = '\\' then '/' else c))

/-- First index at which the regex `/\.[^/]+$/` matches: a dot followed by
one or more non-slash characters running to the end of the string. -/
def extMatchStart : List Char → Option Nat
  | [] => none
  | c :: r =>
    if c = '.' ∧ r ≠ [] ∧ r.all (fun x => x ≠ '/') then some 0
    else (extMatchStart r).map (· + 1)

/-- JS `s.replace(/\.[^/]+$/, '')`. -/
def stripExtLike (s : String) : String :=
  match extMatchStart s.toList with
  | some i => String.mk (s.toList.take i)
  | none => s

/-- JS `/\.[^/]+$/.test(s)`. -/
def hasExtLike (s : String) : Bool :=
  (extMatchStart s.toList).isSome

/-- `ensureLeadingDotSlash(spec)` from `civet-parser`. -/
def ensureLeadingDotSlash (spec : String) : String :=
  if startsWithS spec "./" || startsWithS spec "../" || startsWithS spec "/" then spec
  else "./" ++ spec

/-- `withOrWithoutExtension(basePath, keepExtensionFrom)` from
`civet-parser`. -/
def withOrWithoutExtension (basePath keepExtensionFrom : String) : String :=
  if hasExtLike keepExtensionFrom then basePath
  else stripExtLike basePath

/-- `stripQuotes` on a `String`. -/
def stripQuotesS (s : String) : String :=
  String.mk (stripQuotes s.toList)

/-! ## Dependency graph (`dependency-graph.mts`)

The graph is a `Map` from normalized absolute path to a node holding two
`Set`s.  JS `Set`s are modelled as duplicate-free lists in insertion
order (`setAdd` appends when absent, `setDelete` removes the element);
the `Map` is modelled as a function to `Option`, which is faithful
because no graph operation iterates over the map itself. -/

/-- `DependencyInfo`: files this file imports, and files importing it. -/
structure DependencyInfo where
  imports : List String
  importedBy : List String
deriving Repr, DecidableEq

/-- The graph map. -/
def Graph : Type := String → Option DependencyInfo

/-- The empty graph (state at server start). -/
def emptyGraph : Graph := fun _ => none

/-- JS `Set.prototype.add`. -/
def setAdd (l : List String) (x : String) : List String :=
  if x ∈ l then l else l ++ [x]

/-- JS `Set.prototype.delete` (on the duplicate-free lists built by
`setAdd`, filtering equals removing the single occurrence). -/
def setDelete (l : List String) (x : String) : List String :=
  l.filter (fun y => y ≠ x)

/-- JS `Map.prototype.set`. -/
def mapSet (g : Graph) (k : String) (v : DependencyInfo) : Graph :=
  fun q => if q = k then some v else g q

/-- JS `Map.prototype.delete`. -/
def mapDelete (g : Graph) (k : String) : Graph :=
  fun q => if q = k then none else g q

/-- The node at a key that the source has already checked or created
(`this.graph.get(k)!`). -/
def nodeAt (g : Graph) (k : String) : DependencyInfo :=
  (g k).getD ⟨[], []⟩

/-- The import-resolution loop of `addOrUpdateFile`: scan the content,
keep relative specifiers, resolve them against the file's directory,
default the extension to `.civet`, and normalize. -/
def newImportsOf (fileDir : String) (content : String) : List String :=
  (findAllImportsS content).foldl
    (fun acc m =>
      let specRaw := String.mk (stripQuotes m.spec)
      if startsWithS specRaw "./" || startsWithS specRaw "../" then
        let resolved := NodePath.resolve fileDir specRaw
        let resolved := if NodePath.extname resolved = "" then resolved ++ ".civet" else resolved
        setAdd acc (NodePath.normalize resolved)
      else acc)
    []

/-- Loop body shared by `addOrUpdateFile`'s removed-imports pass and
`removeFile`'s first pass: drop `p` from the `importedBy` set of the
target node, when that node exists
(`this.graph.get(q)?.importedBy.delete(p)`). -/
def dropImportedByStep (p : String) (h : Graph) (q : String) : Graph :=
  match h q with
  | some nn => mapSet h q ⟨nn.imports, setDelete nn.importedBy p⟩
  | none => h

/-- Loop body of `removeFile`'s second pass: drop `p` from the `imports`
set of the target node, when that node exists. -/
def dropImportsStep (p : String) (h : Graph) (q : String) : Graph :=
  match h q with
  | some nn => mapSet h q ⟨setDelete nn.imports p, nn.importedBy⟩
  | none => h

/-- Loop body of `addOrUpdateFile`'s added-imports pass: create the
target node on demand, then add `p` to its `importedBy` set. -/
def addImportedByStep (p : String) (h : Graph) (q : String) : Graph :=
  let h1 := match h q with
            | some _ => h
            | none => mapSet h q ⟨[], []⟩
  mapSet h1 q ⟨(nodeAt h1 q).imports, setAdd (nodeAt h1 q).importedBy p⟩

/-- Loop body of `renameFile`'s dependent-rewrite pass: replace the edge
to `o` by an edge to `n` in the target's `imports` set
(`delete(old); add(new)`). -/
def rewriteImportsStep (o n : String) (h : Graph) (d : String) : Graph :=
  match h d with
  | some dn => mapSet h d ⟨setAdd (setDelete dn.imports o) n, dn.importedBy⟩
  | none => h

/-- Loop body of `renameFile`'s imported-file pass: replace the edge to
`o` by an edge to `n` in the target's `importedBy` set. -/
def rewriteImportedByStep (o n : String) (h : Graph) (m : String) : Graph :=
  match h m with
  | some mn => mapSet h m ⟨mn.imports, setAdd (setDelete mn.importedBy o) n⟩
  | none => h

/-- The node-refresh step of `addOrUpdateFile`: get or create the node
for `p`, then store the freshly scanned `imports` set, keeping the
node's `importedBy` set. -/
def updSetNode (g : Graph) (p : String) (newImports : List String) : Graph :=
  let g1 := match g p with
            | some _ => g
            | none => mapSet g p ⟨[], []⟩
  mapSet g1 p ⟨newImports, (nodeAt g1 p).importedBy⟩

/-- `DependencyGraph.addOrUpdateFile(filePath, content)`. -/
def addOrUpdateFile (g : Graph) (filePath content : String) : Graph :=
  let p := NodePath.normalize filePath
  let fileDir := NodePath.dirname p
  let oldImports := match g p with
                    | some n => n.imports
                    | none => []
  let newImports := newImportsOf fileDir content
  let g2 := updSetNode g p newImports
  let removed := oldImports.filter (fun x => !(newImports.contains x))
  let added := newImports.filter (fun x => !(oldImports.contains x))
  added.foldl (addImportedByStep p) (removed.foldl (dropImportedByStep p) g2)

/-- `DependencyGraph.removeFile(filePath)`. -/
def removeFile (g : Graph) (filePath : String) : Graph :=
  let p := NodePath.normalize filePath
  match g p with
  | none => g
  | some node =>
    let g1 := node.imports.foldl (dropImportedByStep p) g
    let g2 := ((nodeAt g1 p).importedBy).foldl (dropImportsStep p) g1
    mapDelete g2 p

/-- Loop body of `renameFile`'s merge of the old node's `imports` into
the new node (`newNode.imports.add(imp)`). -/
def mergeImportsStep (n : String) (h : Graph) (x : String) : Graph :=
  mapSet h n ⟨setAdd (nodeAt h n).imports x, (nodeAt h n).importedBy⟩

/-- Loop body of `renameFile`'s merge of the old node's `importedBy`
into the new node. -/
def mergeImportedByStep (n : String) (h : Graph) (x : String) : Graph :=
  mapSet h n ⟨(nodeAt h n).imports, setAdd (nodeAt h n).importedBy x⟩

/-- Step 1 of `renameFile`: get a node for the new path, creating it if
absent. -/
def renameEnsure (g : Graph) (n : String) : Graph :=
  match g n with
  | some _ => g
  | none => mapSet g n ⟨[], []⟩

/-- Step 2 of `renameFile`: merge the old node's two edge sets into the
new node by union (never overwriting).  The merge of `imports` leaves
every `importedBy` set untouched, so reading the old node's `importedBy`
after it is the same as the source's snapshot before it. -/
def renameMerge (g1 : Graph) (o n : String) : Graph :=
  ((nodeAt g1 o).importedBy).foldl (mergeImportedByStep n)
    (((nodeAt g1 o).imports).foldl (mergeImportsStep n) g1)

/-- Step 3 of `renameFile`: rewrite every dependent's `imports` edge from
the old to the new path. -/
def renameRewriteDependents (g2b : Graph) (o n : String) : Graph :=
  ((nodeAt g2b n).importedBy).foldl (rewriteImportsStep o n) g2b

/-- Step 4 of `renameFile`: rewrite every imported file's `importedBy`
edge from the old to the new path. -/
def renameRewriteImported (g3 : Graph) (o n : String) : Graph :=
  ((nodeAt g3 n).imports).foldl (rewriteImportedByStep o n) g3

/-- The body of `renameFile` once the old node is known to exist: the
four passes in source order, then the deletion of the old node (last). -/
def renameStages (g : Graph) (o n : String) : Graph :=
  mapDelete
    (renameRewriteImported
      (renameRewriteDependents (renameMerge (renameEnsure g n) o n) o n) o n) o

/-- `DependencyGraph.renameFile(oldPath, newPath)`. -/
def renameFile (g : Graph) (oldPath newPath : String) : Graph :=
  let o := NodePath.normalize oldPath
  let n := NodePath.normalize newPath
  match g o with
  | none => g
  | some _ => renameStages g o n

/-- `DependencyGraph.getDependentsOf(filePath)`. -/
def getDependentsOf (g : Graph) (filePath : String) : List String :=
  match g (NodePath.normalize filePath) with
  | some n => n.importedBy
  | none => []

/-- Pass 1 step of `DependencyGraph.build`: create an empty node for one
discovered file. -/
def buildInitStep (h : Graph) (f : String × Option String) : Graph :=
  mapSet h (NodePath.normalize f.1) ⟨[], []⟩

/-- Pass 2 step of `DependencyGraph.build`: scan one file's content when
it was readable (`none` models an unreadable file, which is logged and
skipped). -/
def buildStep (h : Graph) (f : String × Option String) : Graph :=
  match f.2 with
  | some content => addOrUpdateFile h f.1 content
  | none => h

/-- `DependencyGraph.build(rootDir)`: pass 1 creates an empty node for
every discovered file, pass 2 scans each readable file's content. -/
def buildGraph (files : List (String × Option String)) : Graph :=
  files.foldl buildStep (files.foldl buildInitStep emptyGraph)

/-! ## LSP text documents (external `vscode-languageserver-textdocument`)

Modelled for texts whose only line terminator is `\n`, the shape of every
document in this development. -/

/-- A zero-based line/character position. -/
structure Position where
  line : Nat
  character : Nat
deriving Repr, DecidableEq

/-- A range; `stop` models the source's `end` field (a Lean keyword). -/
structure Range where
  start : Position
  stop : Position
deriving Repr, DecidableEq

/-- An LSP `TextEdit`. -/
structure TextEdit where
  range : Range
  newText : String
deriving Repr, DecidableEq

/-- A text document: URI, content and version. -/
structure TextDocument where
  uri : String
  text : List Char
  version : Nat
deriving Repr, DecidableEq

/-- Offsets at which lines start: `0`, then one past every newline. -/
def lineOffsets (text : List Char) : List Nat :=
  0 :: ((List.range text.length).filter (fun i => charD text i = '\n')).map (· + 1)

/-- Modelled from `TextDocument.positionAt` (the greatest line whose
start offset is at most the clamped offset). -/
def positionAt (text : List Char) (offset : Nat) : Position :=
  let off := min offset text.length
  let los := lineOffsets text
  let ln := (los.filter (fun o => o ≤ off)).length - 1
  ⟨ln, off - los.getD ln 0⟩

/-- Modelled from `TextDocument.offsetAt`. -/
def offsetAt (text : List Char) (pos : Position) : Nat :=
  let los := lineOffsets text
  if pos.line ≥ los.length then text.length
  else
    let lo := los.getD pos.line 0
    let nlo := if pos.line + 1 < los.length then los.getD (pos.line + 1) 0 else text.length
    max (min (lo + pos.character) nlo) lo

/-- Modelled from `TextDocument.getText(range)`. -/
def getTextRange (text : List Char) (r : Range) : List Char :=
  seg text (offsetAt text r.start) (offsetAt text r.stop)

/-- `pathToFileURL(path).toString()` for the absolute POSIX paths of this
development. -/
def pathToFileUrl (p : String) : String :=
  "file://" ++ p

/-- `documentToSourcePath` (via `fileURLToPath`) for such URIs. -/
def uriToPath (uri : String) : String :=
  if startsWithS uri "file://" then uri.drop 7 else uri

/-! ## File-move rename builder (`fileRename`, revision with alias
propagation) -/

/-- One entry of a `WorkspaceEdit.documentChanges` array: target URI,
open-document version (`none` models the `null` version of a closed
file), and its edits. -/
structure TextDocumentEdit where
  uri : String
  version : Option Nat
  edits : List TextEdit
deriving Repr, DecidableEq

/-- `buildCivetImportEdit(document, match, newSpec)`. -/
def buildCivetImportEdit (doc : TextDocument) (m : ImportMatch) (newSpec : String) : TextEdit :=
  let start := positionAt doc.text m.offset
  let stop := positionAt doc.text (m.offset + m.length)
  let originalSpec := getTextRange doc.text ⟨start, stop⟩
  let quoteChar : Option Char :=
    match originalSpec with
    | c :: _ => if c = '"' ∨ c = '\'' then some c else none
    | [] => none
  let newText :=
    match quoteChar with
    | some q => String.mk (q :: (stripQuotesS newSpec).toList ++ [q])
    | none => stripQuotesS newSpec
  ⟨⟨start, stop⟩, newText⟩

/-- The content `buildManualCivetWorkspaceEdits` reads for a candidate
path: the open buffer when there is one, the disk otherwise. -/
def candidateContent (documents : String → Option TextDocument)
    (disk : String → Option String) (sourcePath : String) : Option (List Char) :=
  match documents (pathToFileUrl sourcePath) with
  | some d => some d.text
  | none => (disk sourcePath).map String.toList

/-- Append an edit under a URI of the ordered `editsByUri` record. -/
def recAppend : List (String × List TextEdit) → String → TextEdit → List (String × List TextEdit)
  | [], uri, e => [(uri, [e])]
  | (k, es) :: r, uri, e =>
    if k = uri then (k, es ++ [e]) :: r else (k, es) :: recAppend r uri e

/-- The per-import loop body of `buildManualCivetWorkspaceEdits`: keep
relative specifiers resolving to the old path (extension-insensitively)
and append a replacement edit. -/
def buildManualImportStep (oldPath newPath sourcePath uri : String) (doc : TextDocument)
    (acc2 : List (String × List TextEdit)) (m : ImportMatch) : List (String × List TextEdit) :=
  let dir := NodePath.dirname sourcePath
  let oldNoExt := stripExtLike oldPath
  let specRaw := String.mk (stripQuotes m.spec)
  if ¬ (startsWithS specRaw "./" || startsWithS specRaw "../"
        || startsWithS specRaw "/") then acc2
  else
    let specAbs := NodePath.resolve dir specRaw
    let specNoExt := stripExtLike specAbs
    if specAbs = oldPath ∨ specNoExt = oldNoExt then
      let rel := backslashToSlash (NodePath.relative dir newPath)
      let keepExtFrom := String.mk (stripQuotes m.spec)
      let newSpec := ensureLeadingDotSlash (withOrWithoutExtension rel keepExtFrom)
      recAppend acc2 uri (buildCivetImportEdit doc m newSpec)
    else acc2

/-- The per-candidate-file loop body of `buildManualCivetWorkspaceEdits`:
read the open buffer or the disk, skip empty or import-free content, and
scan every import. -/
def buildManualFileStep (oldPath newPath : String)
    (documents : String → Option TextDocument) (disk : String → Option String)
    (acc : List (String × List TextEdit)) (sourcePath : String) :
    List (String × List TextEdit) :=
  let uri := pathToFileUrl sourcePath
  match candidateContent documents disk sourcePath with
  | none => acc
  | some content =>
    if content.isEmpty then acc
    else
      let imports := findAllImports content
      if imports.isEmpty then acc
      else
        imports.foldl (buildManualImportStep oldPath newPath sourcePath uri ⟨uri, content, 0⟩) acc

/-- `buildManualCivetWorkspaceEdits(oldPath, newPath, …, candidateFiles)`:
scan every candidate file (open buffer preferred over disk), and for
each import match resolving to the old path (extension-insensitively) build a
replacement edit.  Engine staging calls have no effect on the returned
edits and are omitted. -/
def buildManualCivetWorkspaceEdits (oldPath newPath : String)
    (documents : String → Option TextDocument) (disk : String → Option String)
    (candidateFiles : List String) : List TextDocumentEdit :=
  let editsByUri := candidateFiles.foldl
    (buildManualFileStep oldPath newPath documents disk) []
  editsByUri.map
    (fun e => match documents e.1 with
              | some d => ⟨e.1, some d.version, e.2⟩
              | none => ⟨e.1, none, e.2⟩)

/-- The candidate file set of `computeRenameEdits`: for each renamed
file, its dependents and then the file itself. -/
def candidateFilesFor (g : Graph) (oldPaths : List String) : List String :=
  oldPaths.foldl
    (fun acc p => setAdd ((getDependentsOf g p).foldl setAdd acc) p)
    []

/-- `computeRenameEdits` restricted to what reaches its returned edits:
candidates from the graph, then per file pair the manual edits, kept when
at least one edit was found. -/
def computeRenameEditsModel (g : Graph) (documents : String → Option TextDocument)
    (disk : String → Option String) (files : List (String × String)) :
    List TextDocumentEdit :=
  let candidates := candidateFilesFor g (files.map Prod.fst)
  files.foldl
    (fun acc f =>
      let manual := buildManualCivetWorkspaceEdits f.1 f.2 documents disk candidates
      let manualCount := (manual.map (fun e => e.edits.length)).sum
      if manualCount > 0 then acc ++ manual else acc)
    []

/-! ## Symbol-rename resolver (`handleRename` and alias propagation) -/

/-- JS `s.trimStart()` (on ASCII whitespace). -/
def trimStartJS (s : String) : String :=
  String.mk (s.toList.dropWhile isWs)

/-- JS `s.trim()` (on ASCII whitespace). -/
def trimJS (s : String) : String :=
  String.mk (((s.toList.dropWhile isWs).reverse.dropWhile isWs).reverse)

/-- The identifier-continuation class of the recovery scan, the ASCII
fragment of `/[\p{L}\p{Nl}\p{Mn}\p{Mc}\p{Nd}\p{Pc}_$]/u` (letters,
digits, underscore, dollar); no non-ASCII text occurs in this
development. -/
def isIdentCont (c : Char) : Bool :=
  c.isAlpha || c.isDigit || c = '_' || c = '$'

/-- Range recovery of `handleRename`: from a start offset in the original
text, skip leading whitespace, then scan forward over
identifier-continuation characters; returns the token's bounds. -/
def recoverTokenBounds (text : List Char) (startOffset : Nat) : Nat × Nat :=
  let ts := skipWsFrom text startOffset
  (ts, ts + countWhile isIdentCont (text.drop ts))

/-- A TypeScript engine text span. -/
structure EngineTextSpan where
  start : Nat
  length : Nat
deriving Repr, DecidableEq

/-- A rename location returned by the engine's
`findRenameLocations(..., { providePrefixAndSuffixTextForRename: true })`. -/
structure EngineRenameLocation where
  fileName : String
  textSpan : EngineTextSpan
  prefixText : Option String
  suffixText : Option String
deriving Repr, DecidableEq

/-- A source file known to the engine's program. -/
structure SourceFileInfo where
  fileName : String
  text : List Char
deriving Repr, DecidableEq

/-- Transpilation metadata of a file; `sourcemapLines` is opaque data
passed to the external coordinate mapper, modelled as a token. -/
structure MetaInfo where
  sourcemapLines : Option Nat
deriving Repr, DecidableEq

/-- The slice of the analysis engine consumed by `handleRename`:
`findRenameLocations` (which may throw), `getProgram().getSourceFiles()`,
`getSourceFileName` and `host.getMeta`. -/
structure RenameService where
  findLocations : Except String (Option (List EngineRenameLocation))
  program : Option (List SourceFileInfo)
  sourceFileNameOf : String → String
  metaOf : String → Option MetaInfo

/-- The dependencies `handleRename` draws on: open documents, the
external coordinate mapper `remapPosition`, and disk reads for alias
propagation. -/
structure RenameDeps where
  documents : String → Option TextDocument
  allDocs : List TextDocument
  remapPos : Position → Nat → Position
  disk : String → Option String

/-- A `RenamePlan`: anchor in engine coordinates plus the new name. -/
structure RenamePlan where
  fileForTs : String
  offset : Nat
  newName : String
deriving Repr, DecidableEq

/-- A queued alias change for propagation. -/
structure AliasChange where
  modulePath : String
  oldName : String
  newName : String
deriving Repr, DecidableEq

/-- The `changes` record of a `WorkspaceEdit`, in insertion order. -/
def WorkspaceChanges : Type := List (String × List TextEdit)

/-- Ensure a URI key exists in the `changes` record
(`if (!changes[uri]) changes[uri] = []`). -/
def recEnsure : List (String × List TextEdit) → String → List (String × List TextEdit)
  | [], uri => [(uri, [])]
  | (k, es) :: r, uri =>
    if k = uri then (k, es) :: r else (k, es) :: recEnsure r uri

/-- JS lastIndexOf of a character at or before `fromIdx`. -/
def lastIndexOfAtMost (l : List Char) (c : Char) (fromIdx : Nat) : Option Nat :=
  NodePath.lastIdxOf c (l.take (fromIdx + 1))

/-- All match positions of the global regex `\bname\b` in `l`. -/
def wordOccurrences (l : List Char) (pat : List Char) : List Nat :=
  (List.range l.length).filter
    (fun j => substrAt l j pat
      && !(decide (0 < j) && isWordCharO (charAt l (j - 1)))
      && !(isWordCharO (charAt l (j + pat.length))))

/-- One document entry of alias propagation. -/
def entrySet (entries : List (String × TextDocument)) (k : String) (d : TextDocument) :
    List (String × TextDocument) :=
  if entries.any (fun e => e.1 = k) then
    entries.map (fun e => if e.1 = k then (k, d) else e)
  else entries ++ [(k, d)]

/-- `applyAliasPropagation(aliasChanges, service, deps, workspaceEdit)`:
for every known `.civet` document (open ones first, then the program's
remaining files read from disk) and every queued alias change, rewrite
the old alias inside the brace clause of every import of the same
module. -/
def applyAliasPropagation (aliasChanges : List AliasChange) (svc : RenameService)
    (deps : RenameDeps) (changes : WorkspaceChanges) : WorkspaceChanges :=
  if aliasChanges.isEmpty then changes
  else
    match svc.program with
    | none => changes
    | some sourceFiles =>
      let entries0 := deps.allDocs.foldl
        (fun acc doc => entrySet acc (uriToPath doc.uri) doc) []
      let entries := sourceFiles.foldl
        (fun acc sf =>
          let sourcePath := svc.sourceFileNameOf sf.fileName
          if ¬ endsWithS sourcePath ".civet" then acc
          else if acc.any (fun e => e.1 = sourcePath) then acc
          else
            match deps.disk sourcePath with
            | some content => entrySet acc sourcePath ⟨pathToFileUrl sourcePath, content.toList, 0⟩
            | none => acc)
        entries0
      entries.foldl
        (fun ch ent =>
          let sourcePath := ent.1
          let doc := ent.2
          let docUri := doc.uri
          let importMs := findAllImports doc.text
          let docDir := NodePath.dirname sourcePath
          aliasChanges.foldl
            (fun ch2 ac =>
              let moduleNoExt := stripExtLike ac.modulePath
              importMs.foldl
                (fun ch3 m =>
                  if m.type ≠ ImpKind.fromKind then ch3
                  else
                    let specRaw := String.mk (stripQuotes m.spec)
                    let specAbs := NodePath.resolve docDir specRaw
                    let specNoExt := stripExtLike specAbs
                    if specAbs ≠ ac.modulePath ∧ specNoExt ≠ moduleNoExt then ch3
                    else
                      match lastIndexOfAtMost doc.text '{' m.offset with
                      | none => ch3
                      | some braceStart =>
                        match indexOfFrom doc.text ['}'] braceStart with
                        | none => ch3
                        | some braceEnd =>
                          if braceEnd ≤ braceStart then ch3
                          else
                            let braceSection := seg doc.text braceStart braceEnd
                            (wordOccurrences braceSection ac.oldName.toList).foldl
                              (fun ch4 idx =>
                                let startOffset := braceStart + idx
                                let stopOffset := startOffset + ac.oldName.length
                                if seg doc.text startOffset stopOffset = ac.newName.toList then ch4
                                else recAppend (recEnsure ch4 docUri) docUri
                                  ⟨⟨positionAt doc.text startOffset,
                                    positionAt doc.text stopOffset⟩, ac.newName⟩)
                              ch3)
                ch2)
            ch)
        changes

/-- One iteration of `handleRename`'s location loop: resolve the file,
require an open document, recover the edit range through the sourcemap
when one exists, apply the prefix/suffix replacement policy (with the
alias-drop special case), and push the edit. -/
def renameLocStep (svc : RenameService) (deps : RenameDeps) (prog : List SourceFileInfo)
    (newName : String) (st : WorkspaceChanges × List AliasChange)
    (edit : EngineRenameLocation) : WorkspaceChanges × List AliasChange :=
  match prog.find? (fun sf => sf.fileName = edit.fileName) with
  | none => st
  | some sf =>
    let rawSourceName := svc.sourceFileNameOf edit.fileName
    let uri := pathToFileUrl rawSourceName
    let ch0 := recEnsure st.1 uri
    match deps.documents uri with
    | none => (ch0, st.2)
    | some doc =>
      let start0 := positionAt sf.text edit.textSpan.start
      let stop0 := positionAt sf.text (edit.textSpan.start + edit.textSpan.length)
      let recovered : Option (Position × Position) :=
        match (svc.metaOf rawSourceName).bind (fun meta => meta.sourcemapLines) with
        | some sml =>
          let start1 := deps.remapPos start0 sml
          let so := offsetAt doc.text start1
          let bounds := recoverTokenBounds doc.text so
          if bounds.1 = bounds.2 then none
          else some (positionAt doc.text bounds.1, positionAt doc.text bounds.2)
        | none => some (start0, stop0)
      match recovered with
      | none => (ch0, st.2)
      | some se =>
        let start := se.1
        let stop := se.2
        let hasPrefix := edit.prefixText.isSome
        let hasSuffix := edit.suffixText.isSome
        if hasPrefix ∨ hasSuffix then
          let prefixText := edit.prefixText.getD ""
          let suffixText := edit.suffixText.getD ""
          if hasSuffix then
            let originalText := String.mk (getTextRange doc.text ⟨start, stop⟩)
            let suffixTrim := trimStartJS suffixText
            if startsWithS suffixTrim "as " ∧ trimJS (suffixTrim.drop 3) = originalText then
              (recAppend ch0 uri ⟨⟨start, stop⟩, prefixText ++ newName⟩,
               st.2 ++ [⟨rawSourceName, originalText, newName⟩])
            else
              (recAppend ch0 uri ⟨⟨start, stop⟩, prefixText ++ newName ++ suffixText⟩, st.2)
          else
            (recAppend ch0 uri ⟨⟨start, stop⟩, prefixText ++ newName ++ suffixText⟩, st.2)
        else
          (recAppend ch0 uri ⟨⟨start, stop⟩, newName⟩, st.2)

/-- `handleRename(plan, deps)`: every engine exception or missing
prerequisite yields `none`; otherwise the per-location edits followed by
alias propagation. -/
def handleRename (plan : RenamePlan) (svc : Option RenameService) (deps : RenameDeps) :
    Option WorkspaceChanges :=
  match svc with
  | none => none
  | some service =>
    match service.findLocations with
    | Except.error _ => none
    | Except.ok none => none
    | Except.ok (some edits) =>
      match service.program with
      | none => none
      | some prog =>
        let st := edits.foldl (renameLocStep service deps prog plan.newName) ([], [])
        some (applyAliasPropagation st.2 service deps st.1)

/-! ## Will-rename orchestration (`connection.workspace.onWillRenameFiles`)

The handler runs on a single-threaded event loop; the observable order
of its graph queries and suspension points is its statement order,
recorded here as an event trace. -/

/-- Events of the will-rename handler, in program order. -/
inductive RenameEvent where
  | createBarrier : RenameEvent
  | dependentsQuery : String → RenameEvent
  | stageOldFile : String → RenameEvent
  | scanCandidates : String → RenameEvent
  | awaitGraphReady : RenameEvent
  | respond : RenameEvent
deriving Repr, DecidableEq

/-- Event trace of `computeRenameEdits`: first the candidate-set loop
(one `getDependentsOf` query per renamed file), then the per-file
staging and scanning loop. -/
def computeRenameEditsTrace (files : List (String × String)) : List RenameEvent :=
  files.map (fun f => RenameEvent.dependentsQuery f.1)
    ++ (files.map (fun f => [RenameEvent.stageOldFile f.1, RenameEvent.scanCandidates f.1])).flatten

/-- Event trace of `onWillRenameFiles`: create the barrier, run
`computeRenameEdits`, await the graph's readiness, respond. -/
def onWillRenameFilesTrace (files : List (String × String)) : List RenameEvent :=
  RenameEvent.createBarrier :: computeRenameEditsTrace files
    ++ [RenameEvent.awaitGraphReady, RenameEvent.respond]

/-! ## Vocabulary for the graph and builder theorems -/

/-- Edge symmetry: for every pair of nodes in the graph, `A ∈ imports(B)`
iff `B ∈ importedBy(A)`. -/
def SymGraph (g : Graph) : Prop :=
  ∀ a b na nb, g a = some na → g b = some nb →
    (a ∈ nb.imports ↔ b ∈ na.importedBy)

/-- Edge closedness: every path mentioned in a node's edge sets is itself
a node of the graph. -/
def ClosedGraph (g : Graph) : Prop :=
  ∀ b nb, g b = some nb →
    (∀ a ∈ nb.imports, ∃ n, g a = some n) ∧
    (∀ a ∈ nb.importedBy, ∃ n, g a = some n)

/-- A public mutating operation of the dependency graph after its initial
build. -/
inductive GraphOp where
  | add : String → String → GraphOp
  | remove : String → GraphOp
  | rename : String → String → GraphOp
deriving Repr, DecidableEq

/-- Apply one public operation. -/
def applyOp (g : Graph) : GraphOp → Graph
  | GraphOp.add p c => addOrUpdateFile g p c
  | GraphOp.remove p => removeFile g p
  | GraphOp.rename o n => renameFile g o n

/-- Apply a sequence of public operations. -/
def applyOps (g : Graph) (ops : List GraphOp) : Graph :=
  ops.foldl applyOp g

/-- Side condition of the amended symmetry claim for one rename: the
normalized paths differ and the old node carries no self-edge. -/
def renameSafeB (g : Graph) (oldPath newPath : String) : Bool :=
  let o := NodePath.normalize oldPath
  !(NodePath.normalize newPath == o)
    && !((nodeAt g o).imports.contains o)
    && !((nodeAt g o).importedBy.contains o)

/-- Every rename of the operation sequence satisfies `renameSafeB` in the
state where it runs. -/
def renamesSafe : Graph → List GraphOp → Bool
  | _, [] => true
  | g, op :: ops =>
    (match op with
     | GraphOp.rename o n => renameSafeB g o n
     | _ => true) && renamesSafe (applyOp g op) ops

/-- Membership in the merged `imports` set that `renameFile` gives the
new node: the union of the destination node's and the old node's
pre-rename imports. -/
def rnMergedImp (g : Graph) (o n x : String) : Prop :=
  x ∈ (nodeAt g n).imports ∨ x ∈ (nodeAt g o).imports

/-- Membership in the merged `importedBy` set that `renameFile` gives
the new node. -/
def rnMergedIB (g : Graph) (o n x : String) : Prop :=
  x ∈ (nodeAt g n).importedBy ∨ x ∈ (nodeAt g o).importedBy

/-- Membership in the new node's final `imports` set after the
dependent-rewrite pass of `renameFile` (the pass also rewrites the new
node itself when it is its own dependent). -/
def rnNewImports (g : Graph) (o n q : String) : Prop :=
  (rnMergedImp g o n q ∧ (rnMergedIB g o n n → q ≠ o)) ∨ (rnMergedIB g o n n ∧ q = n)

/-- The `removed` list of `addOrUpdateFile` at node `p`: old imports no
longer present in the freshly scanned content. -/
def updRemoved (g : Graph) (p content : String) : List String :=
  ((nodeAt g p).imports).filter
    (fun x => !((newImportsOf (NodePath.dirname p) content).contains x))

/-- The `added` list of `addOrUpdateFile` at node `p`: the freshly
scanned imports that were not present before. -/
def updAdded (g : Graph) (p content : String) : List String :=
  (newImportsOf (NodePath.dirname p) content).filter
    (fun x => !((nodeAt g p).imports.contains x))

/-- A graph in which a self-importing node at `/o.civet` coexists with an
already-populated destination node at `/n.civet`, as produced by two
content updates racing ahead of a rename notification. -/
def c2RaceGraph : Graph :=
  addOrUpdateFile (addOrUpdateFile emptyGraph "/o.civet" "import './o.civet'")
    "/n.civet" "import './o.civet'"

/-- The slice property of an `ImportMatch`: re-slicing
`text[offset, offset+length]` reproduces the literal specifier token,
a quote character, the specifier text, and the same quote again. -/
def sliceReproduces (l : List Char) (m : ImportMatch) : Prop :=
  (charD l m.offset = '\'' ∨ charD l m.offset = '"') ∧
  seg l m.offset (m.offset + m.length) = charD l m.offset :: m.spec ++ [charD l m.offset]

/-- The replacement specifier of the file-move builder: relative path
from the dependent's directory to the new path, with the original
extension style and a leading dot-slash. -/
def civetReplacementSpec (dir newPath keepExtFrom : String) : String :=
  ensureLeadingDotSlash (withOrWithoutExtension (backslashToSlash (NodePath.relative dir newPath)) keepExtFrom)

/-- Wrap a specifier in an optional quote character, as
`buildCivetImportEdit` formats its replacement text. -/
def quoteWrap : Option Char → String → String
  | some q, s => String.mk (q :: (stripQuotesS s).toList ++ [q])
  | none, s => stripQuotesS s

/-- The three-file chain of the builder scenario: `a` imports `./b`,
`b` imports `./c`, `c` imports nothing. -/
def c5Files : List (String × Option String) :=
  [("/a.civet", some "import { x } from './b'"),
   ("/b.civet", some "import './c'"),
   ("/c.civet", some "x = 1\n")]

/-- The dependency graph built over the three-file chain. -/
def c5Graph : Graph := buildGraph c5Files

/-- No open editor buffers in the builder scenario. -/
def c5Docs : String → Option TextDocument := fun _ => none

/-- On-disk contents of the builder scenario. -/
def c5Disk : String → Option String := fun p =>
  if p = "/a.civet" then some "import { x } from './b'"
  else if p = "/b.civet" then some "import './c'"
  else if p = "/c.civet" then some "x = 1\n" else none

/-- A record of edits grouped by URI satisfies `P` on every edit. -/
def editsRecOK (P : TextEdit → Prop) (acc : List (String × List TextEdit)) : Prop :=
  ∀ ke ∈ acc, ∀ e ∈ ke.2, P e

/-- The wrapping quote `q` is exactly the original one: the first
character of the original text at the match's range when that character
is a quote, and absent otherwise. -/
def matchSliceQuote (content : List Char) (m : ImportMatch) (q : Option Char) : Prop :=
  match getTextRange content
      ⟨positionAt content m.offset, positionAt content (m.offset + m.length)⟩ with
  | c :: _ => q = if c = '"' ∨ c = '\'' then some c else none
  | [] => q = none

/-- What the spec promises of one builder edit: its replacement text is
the relative path from the dependent's directory to the new path, with
the original import's extension style, a leading dot-slash, and the
original quote character kept. -/
def builderEditOK (newPath : String) (documents : String → Option TextDocument)
    (disk : String → Option String) (candidateFiles : List String) (e : TextEdit) : Prop :=
  ∃ sp ∈ candidateFiles, ∃ content, candidateContent documents disk sp = some content ∧
    ∃ m ∈ findAllImports content, ∃ q : Option Char,
      e.newText = quoteWrap q (civetReplacementSpec (NodePath.dirname sp) newPath
        (String.mk (stripQuotes m.spec))) ∧
      matchSliceQuote content m q

/-- The original text of the range-recovery scenario. -/
def c6Text : List Char := "console.log abc".toList

/-- Engine slice of the range-recovery scenario: one rename location
claiming a 4-character span starting at the space before `abc`, with
sourcemap metadata present. -/
def c6Svc : RenameService :=
  ⟨Except.ok (some [⟨"/m.ts", ⟨11, 4⟩, none, none⟩]),
   some [⟨"/m.ts", c6Text⟩], fun _ => "/m.civet", fun _ => some ⟨some 0⟩⟩

/-- Dependencies of the range-recovery scenario: the original document is
open and the coordinate mapper is the identity. -/
def c6Deps : RenameDeps :=
  ⟨fun u => if u = "file:///m.civet" then some ⟨"file:///m.civet", c6Text, 1⟩ else none,
   [⟨"file:///m.civet", c6Text, 1⟩], fun p _ => p, fun _ => none⟩

/-- The rename request of the range-recovery scenario. -/
def c6Plan : RenamePlan := ⟨"/m.ts", 13, "xyz"⟩

/-- Original module text of the alias-drop scenario. -/
def c7MText : List Char := "oldAlias more".toList

/-- A file importing `oldAlias` from the renamed module. -/
def c7FText : List Char := "import { oldAlias } from './m.civet'".toList

/-- A file importing a different name from the same module. -/
def c7GText : List Char := "import { other } from './m.civet'".toList

/-- Engine slice of the alias-drop scenario: one location over the
8-character `oldAlias` token whose suffix text is `" as oldAlias"`. -/
def c7Svc : RenameService :=
  ⟨Except.ok (some [⟨"/m.ts", ⟨0, 8⟩, none, some " as oldAlias"⟩]),
   some [⟨"/m.ts", c7MText⟩, ⟨"/f.ts", c7FText⟩, ⟨"/g.ts", c7GText⟩],
   fun n => if n = "/m.ts" then "/m.civet" else if n = "/f.ts" then "/f.civet"
            else if n = "/g.ts" then "/g.civet" else n,
   fun _ => some ⟨some 0⟩⟩

/-- Dependencies of the alias-drop scenario: all three documents open,
identity coordinate mapper. -/
def c7Deps : RenameDeps :=
  ⟨fun u => if u = "file:///m.civet" then some ⟨"file:///m.civet", c7MText, 1⟩
            else if u = "file:///f.civet" then some ⟨"file:///f.civet", c7FText, 1⟩
            else if u = "file:///g.civet" then some ⟨"file:///g.civet", c7GText, 1⟩ else none,
   [⟨"file:///m.civet", c7MText, 1⟩, ⟨"file:///f.civet", c7FText, 1⟩,
    ⟨"file:///g.civet", c7GText, 1⟩],
   fun p _ => p, fun _ => none⟩

/-- The rename request of the alias-drop scenario. -/
def c7Plan : RenamePlan := ⟨"/m.ts", 0, "newName"⟩

/-! # Theorems -/

/-! ## Set and map lemmas -/

theorem mem_setAdd {l : List String} {x y : String} :
    y ∈ setAdd l x ↔ y ∈ l ∨ y = x := by
  unfold setAdd
  by_cases h : x ∈ l
  · simp only [if_pos h]
    constructor
    · exact fun hy => Or.inl hy
    · rintro (hy | rfl)
      · exact hy
      · exact h
  · simp [if_neg h]

theorem mem_setDelete {l : List String} {x y : String} :
    y ∈ setDelete l x ↔ y ∈ l ∧ y ≠ x := by
  unfold setDelete
  simp [List.mem_filter]

theorem mem_foldl_setAdd {L : List String} {init : List String} {y : String} :
    y ∈ L.foldl setAdd init ↔ y ∈ init ∨ y ∈ L := by
  induction L generalizing init with
  | nil => simp
  | cons a L ih =>
    simp only [List.foldl_cons, ih, mem_setAdd, List.mem_cons]
    tauto

theorem mapSet_apply (g : Graph) (k : String) (v : DependencyInfo) (q : String) :
    mapSet g k v q = if q = k then some v else g q := rfl

theorem mapDelete_apply (g : Graph) (k q : String) :
    mapDelete g k q = if q = k then none else g q := rfl

/-! ## Pointwise characterizations of the graph-mutation loops -/

theorem nodeAt_eq_of_some {g : Graph} {q : String} {v : DependencyInfo} (h : g q = some v) :
    nodeAt g q = v := by
  unfold nodeAt
  rw [h]
  rfl

theorem nodeAt_eq_of_none {g : Graph} {q : String} (h : g q = none) :
    nodeAt g q = ⟨[], []⟩ := by
  unfold nodeAt
  rw [h]
  rfl

theorem ensure_apply (g : Graph) (k q : String) :
    (match g k with
     | some _ => g
     | none => mapSet g k ⟨[], []⟩) q = if q = k then some (nodeAt g k) else g q := by
  cases hk : g k with
  | none =>
    show mapSet g k ⟨[], []⟩ q = if q = k then some (nodeAt g k) else g q
    rw [mapSet_apply]
    by_cases hq : q = k
    · rw [if_pos hq, if_pos hq, nodeAt_eq_of_none hk]
    · rw [if_neg hq, if_neg hq]
  | some v =>
    show g q = if q = k then some (nodeAt g k) else g q
    by_cases hq : q = k
    · rw [if_pos hq, hq, hk, nodeAt_eq_of_some hk]
    · rw [if_neg hq]

theorem renameEnsure_apply (g : Graph) (k q : String) :
    renameEnsure g k q = if q = k then some (nodeAt g k) else g q :=
  ensure_apply g k q

theorem mergeImports_fold (n : String) :
    ∀ (xs : List String) (h0 : Graph), (h0 n).isSome →
      ((xs.foldl (mergeImportsStep n) h0) n
          = some ⟨xs.foldl setAdd (nodeAt h0 n).imports, (nodeAt h0 n).importedBy⟩) ∧
      (∀ q, q ≠ n → (xs.foldl (mergeImportsStep n) h0) q = h0 q) := by
  intro xs
  induction xs with
  | nil =>
    intro h0 hn
    refine ⟨?_, fun q hq => rfl⟩
    obtain ⟨v, hv⟩ := Option.isSome_iff_exists.mp hn
    simp [hv, nodeAt_eq_of_some hv]
  | cons x xs ih =>
    intro h0 hn
    have hset : mergeImportsStep n h0 x n
        = some ⟨setAdd (nodeAt h0 n).imports x, (nodeAt h0 n).importedBy⟩ := by
      unfold mergeImportsStep
      rw [mapSet_apply, if_pos rfl]
    obtain ⟨ha, hb⟩ := ih (mergeImportsStep n h0 x) (by rw [hset]; rfl)
    constructor
    · rw [List.foldl_cons, ha, nodeAt_eq_of_some hset]
      rfl
    · intro q hq
      rw [List.foldl_cons, hb q hq]
      unfold mergeImportsStep
      rw [mapSet_apply, if_neg hq]

theorem mergeImportedBy_fold (n : String) :
    ∀ (xs : List String) (h0 : Graph), (h0 n).isSome →
      ((xs.foldl (mergeImportedByStep n) h0) n
          = some ⟨(nodeAt h0 n).imports, xs.foldl setAdd (nodeAt h0 n).importedBy⟩) ∧
      (∀ q, q ≠ n → (xs.foldl (mergeImportedByStep n) h0) q = h0 q) := by
  intro xs
  induction xs with
  | nil =>
    intro h0 hn
    refine ⟨?_, fun q hq => rfl⟩
    obtain ⟨v, hv⟩ := Option.isSome_iff_exists.mp hn
    simp [hv, nodeAt_eq_of_some hv]
  | cons x xs ih =>
    intro h0 hn
    have hset : mergeImportedByStep n h0 x n
        = some ⟨(nodeAt h0 n).imports, setAdd (nodeAt h0 n).importedBy x⟩ := by
      unfold mergeImportedByStep
      rw [mapSet_apply, if_pos rfl]
    obtain ⟨ha, hb⟩ := ih (mergeImportedByStep n h0 x) (by rw [hset]; rfl)
    constructor
    · rw [List.foldl_cons, ha, nodeAt_eq_of_some hset]
      rfl
    · intro q hq
      rw [List.foldl_cons, hb q hq]
      unfold mergeImportedByStep
      rw [mapSet_apply, if_neg hq]

theorem renameMerge_apply (g1 : Graph) (o n : String) (hn : (g1 n).isSome) :
    (renameMerge g1 o n) n
      = some ⟨((nodeAt g1 o).imports).foldl setAdd (nodeAt g1 n).imports,
              ((nodeAt g1 o).importedBy).foldl setAdd (nodeAt g1 n).importedBy⟩ ∧
    ∀ q, q ≠ n → (renameMerge g1 o n) q = g1 q := by
  unfold renameMerge
  obtain ⟨h2a, h2b⟩ := mergeImports_fold n (nodeAt g1 o).imports g1 hn
  have hn2 : ((((nodeAt g1 o).imports).foldl (mergeImportsStep n) g1) n).isSome := by
    rw [h2a]
    rfl
  obtain ⟨h3a, h3b⟩ := mergeImportedBy_fold n (nodeAt g1 o).importedBy _ hn2
  constructor
  · rw [h3a, nodeAt_eq_of_some h2a]
  · exact fun q hq => (h3b q hq).trans (h2b q hq)

theorem dropImportedBy_fold (p : String) :
    ∀ (L : List String) (h0 : Graph) (q : String),
      ((L.foldl (dropImportedByStep p) h0) q = none ↔ h0 q = none) ∧
      (∀ v, (L.foldl (dropImportedByStep p) h0) q = some v →
        v.imports = (nodeAt h0 q).imports ∧
        ∀ x, x ∈ v.importedBy ↔ (x ∈ (nodeAt h0 q).importedBy ∧ (q ∈ L → x ≠ p))) := by
  intro L
  induction L with
  | nil =>
    intro h0 q
    refine ⟨Iff.rfl, fun v hv => ?_⟩
    replace hv : h0 q = some v := hv
    rw [nodeAt_eq_of_some hv]
    exact ⟨rfl, fun x => by simp⟩
  | cons d L ih =>
    intro h0 q
    rw [List.foldl_cons]
    by_cases hqd : q = d
    · subst hqd
      cases hq : h0 q with
      | none =>
        have hstep : dropImportedByStep p h0 q = h0 := by
          simp only [dropImportedByStep, hq]
        rw [hstep]
        obtain ⟨jh1, jh2⟩ := ih h0 q
        rw [hq] at jh1
        refine ⟨jh1, fun v hv => ?_⟩
        obtain ⟨hvi, hvb⟩ := jh2 v hv
        refine ⟨hvi, fun x => ?_⟩
        rw [hvb x, nodeAt_eq_of_none hq]
        simp
      | some dn =>
        have hstep : dropImportedByStep p h0 q q = some ⟨dn.imports, setDelete dn.importedBy p⟩ := by
          simp only [dropImportedByStep, hq]
          rw [mapSet_apply, if_pos rfl]
        obtain ⟨jh1, jh2⟩ := ih (dropImportedByStep p h0 q) q
        constructor
        · rw [jh1, hstep]
          simp
        · intro v hv
          obtain ⟨hvi, hvb⟩ := jh2 v hv
          rw [nodeAt_eq_of_some hstep] at hvi hvb
          refine ⟨by rw [hvi, nodeAt_eq_of_some hq], fun x => ?_⟩
          rw [hvb x]
          simp only [mem_setDelete, nodeAt_eq_of_some hq]
          constructor
          · rintro ⟨⟨hx, hxp⟩, _⟩
            exact ⟨hx, fun _ => hxp⟩
          · rintro ⟨hx, hxp⟩
            exact ⟨⟨hx, hxp (by simp)⟩, fun _ => hxp (by simp)⟩
    · have hstep : dropImportedByStep p h0 d q = h0 q := by
        cases hd : h0 d with
        | none => simp only [dropImportedByStep, hd]
        | some dn =>
          simp only [dropImportedByStep, hd]
          rw [mapSet_apply, if_neg hqd]
      have hnode : nodeAt (dropImportedByStep p h0 d) q = nodeAt h0 q := by
        unfold nodeAt
        rw [hstep]
      obtain ⟨jh1, jh2⟩ := ih (dropImportedByStep p h0 d) q
      refine ⟨jh1.trans (by rw [hstep]), fun v hv => ?_⟩
      obtain ⟨hvi, hvb⟩ := jh2 v hv
      rw [hnode] at hvi hvb
      refine ⟨hvi, fun x => ?_⟩
      rw [hvb x]
      constructor
      · rintro ⟨hx, hxp⟩
        refine ⟨hx, fun hm => hxp ?_⟩
        rcases List.mem_cons.mp hm with h | h
        · exact absurd h hqd
        · exact h
      · rintro ⟨hx, hxp⟩
        exact ⟨hx, fun hm => hxp (List.mem_cons_of_mem d hm)⟩

theorem dropImports_fold (p : String) :
    ∀ (L : List String) (h0 : Graph) (q : String),
      ((L.foldl (dropImportsStep p) h0) q = none ↔ h0 q = none) ∧
      (∀ v, (L.foldl (dropImportsStep p) h0) q = some v →
        v.importedBy = (nodeAt h0 q).importedBy ∧
        ∀ x, x ∈ v.imports ↔ (x ∈ (nodeAt h0 q).imports ∧ (q ∈ L → x ≠ p))) := by
  intro L
  induction L with
  | nil =>
    intro h0 q
    refine ⟨Iff.rfl, fun v hv => ?_⟩
    replace hv : h0 q = some v := hv
    rw [nodeAt_eq_of_some hv]
    exact ⟨rfl, fun x => by simp⟩
  | cons d L ih =>
    intro h0 q
    rw [List.foldl_cons]
    by_cases hqd : q = d
    · subst hqd
      cases hq : h0 q with
      | none =>
        have hstep : dropImportsStep p h0 q = h0 := by
          simp only [dropImportsStep, hq]
        rw [hstep]
        obtain ⟨jh1, jh2⟩ := ih h0 q
        rw [hq] at jh1
        refine ⟨jh1, fun v hv => ?_⟩
        obtain ⟨hvi, hvb⟩ := jh2 v hv
        refine ⟨hvi, fun x => ?_⟩
        rw [hvb x, nodeAt_eq_of_none hq]
        simp
      | some dn =>
        have hstep : dropImportsStep p h0 q q = some ⟨setDelete dn.imports p, dn.importedBy⟩ := by
          simp only [dropImportsStep, hq]
          rw [mapSet_apply, if_pos rfl]
        obtain ⟨jh1, jh2⟩ := ih (dropImportsStep p h0 q) q
        constructor
        · rw [jh1, hstep]
          simp
        · intro v hv
          obtain ⟨hvi, hvb⟩ := jh2 v hv
          rw [nodeAt_eq_of_some hstep] at hvi hvb
          refine ⟨by rw [hvi, nodeAt_eq_of_some hq], fun x => ?_⟩
          rw [hvb x]
          simp only [mem_setDelete, nodeAt_eq_of_some hq]
          constructor
          · rintro ⟨⟨hx, hxp⟩, _⟩
            exact ⟨hx, fun _ => hxp⟩
          · rintro ⟨hx, hxp⟩
            exact ⟨⟨hx, hxp (by simp)⟩, fun _ => hxp (by simp)⟩
    · have hstep : dropImportsStep p h0 d q = h0 q := by
        cases hd : h0 d with
        | none => simp only [dropImportsStep, hd]
        | some dn =>
          simp only [dropImportsStep, hd]
          rw [mapSet_apply, if_neg hqd]
      have hnode : nodeAt (dropImportsStep p h0 d) q = nodeAt h0 q := by
        unfold nodeAt
        rw [hstep]
      obtain ⟨jh1, jh2⟩ := ih (dropImportsStep p h0 d) q
      refine ⟨jh1.trans (by rw [hstep]), fun v hv => ?_⟩
      obtain ⟨hvi, hvb⟩ := jh2 v hv
      rw [hnode] at hvi hvb
      refine ⟨hvi, fun x => ?_⟩
      rw [hvb x]
      constructor
      · rintro ⟨hx, hxp⟩
        refine ⟨hx, fun hm => hxp ?_⟩
        rcases List.mem_cons.mp hm with h | h
        · exact absurd h hqd
        · exact h
      · rintro ⟨hx, hxp⟩
        exact ⟨hx, fun hm => hxp (List.mem_cons_of_mem d hm)⟩

theorem addImportedByStep_apply (p : String) (h0 : Graph) (d q : String) :
    (addImportedByStep p h0 d) q
      = if q = d then some ⟨(nodeAt h0 d).imports, setAdd (nodeAt h0 d).importedBy p⟩
        else h0 q := by
  unfold addImportedByStep
  have hens := ensure_apply h0 d
  have hnode : nodeAt (match h0 d with
      | some _ => h0
      | none => mapSet h0 d ⟨[], []⟩) d = nodeAt h0 d := by
    unfold nodeAt
    rw [hens d, if_pos rfl]
    rfl
  rw [mapSet_apply, hnode]
  by_cases hq : q = d
  · rw [if_pos hq, if_pos hq]
  · rw [if_neg hq, if_neg hq, hens q, if_neg hq]

theorem addImportedBy_fold (p : String) :
    ∀ (L : List String) (h0 : Graph) (q : String),
      (((L.foldl (addImportedByStep p) h0) q).isSome ↔ (h0 q).isSome ∨ q ∈ L) ∧
      (∀ v, (L.foldl (addImportedByStep p) h0) q = some v →
        v.imports = (nodeAt h0 q).imports ∧
        ∀ x, x ∈ v.importedBy ↔ (x ∈ (nodeAt h0 q).importedBy ∨ (q ∈ L ∧ x = p))) := by
  intro L
  induction L with
  | nil =>
    intro h0 q
    refine ⟨by simp, fun v hv => ?_⟩
    replace hv : h0 q = some v := hv
    rw [nodeAt_eq_of_some hv]
    exact ⟨rfl, fun x => by simp⟩
  | cons d L ih =>
    intro h0 q
    rw [List.foldl_cons]
    obtain ⟨jh1, jh2⟩ := ih (addImportedByStep p h0 d) q
    have hstep := addImportedByStep_apply p h0 d q
    by_cases hqd : q = d
    · subst hqd
      rw [if_pos rfl] at hstep
      have hnode : nodeAt (addImportedByStep p h0 q) q
          = ⟨(nodeAt h0 q).imports, setAdd (nodeAt h0 q).importedBy p⟩ :=
        nodeAt_eq_of_some hstep
      constructor
      · rw [jh1, hstep]
        simp
      · intro v hv
        obtain ⟨hvi, hvb⟩ := jh2 v hv
        rw [hnode] at hvi hvb
        refine ⟨hvi, fun x => ?_⟩
        rw [hvb x]
        simp only [mem_setAdd]
        constructor
        · rintro (⟨hx | hx⟩ | ⟨_, hx⟩)
          · exact Or.inl hx
          · exact Or.inr ⟨by simp, hx⟩
          · exact Or.inr ⟨by simp, hx⟩
        · rintro (hx | ⟨_, hx⟩)
          · exact Or.inl (Or.inl hx)
          · exact Or.inl (Or.inr hx)
    · rw [if_neg hqd] at hstep
      have hnode : nodeAt (addImportedByStep p h0 d) q = nodeAt h0 q := by
        unfold nodeAt
        rw [hstep]
      constructor
      · rw [jh1, hstep]
        constructor
        · rintro (hx | hx)
          · exact Or.inl hx
          · exact Or.inr (List.mem_cons_of_mem d hx)
        · rintro (hx | hx)
          · exact Or.inl hx
          · rcases List.mem_cons.mp hx with h | h
            · exact absurd h hqd
            · exact Or.inr h
      · intro v hv
        obtain ⟨hvi, hvb⟩ := jh2 v hv
        rw [hnode] at hvi hvb
        refine ⟨hvi, fun x => ?_⟩
        rw [hvb x]
        constructor
        · rintro (hx | ⟨hm, hx⟩)
          · exact Or.inl hx
          · exact Or.inr ⟨List.mem_cons_of_mem d hm, hx⟩
        · rintro (hx | ⟨hm, hx⟩)
          · exact Or.inl hx
          · rcases List.mem_cons.mp hm with h | h
            · exact absurd h hqd
            · exact Or.inr ⟨h, hx⟩

theorem rewriteImports_fold (o n : String) :
    ∀ (L : List String) (h0 : Graph) (q : String),
      ((L.foldl (rewriteImportsStep o n) h0) q = none ↔ h0 q = none) ∧
      (∀ v, (L.foldl (rewriteImportsStep o n) h0) q = some v →
        v.importedBy = (nodeAt h0 q).importedBy ∧
        ∀ x, x ∈ v.imports ↔
          ((x ∈ (nodeAt h0 q).imports ∧ (q ∈ L → x ≠ o)) ∨ (q ∈ L ∧ x = n))) := by
  intro L
  induction L with
  | nil =>
    intro h0 q
    refine ⟨Iff.rfl, fun v hv => ?_⟩
    replace hv : h0 q = some v := hv
    rw [nodeAt_eq_of_some hv]
    exact ⟨rfl, fun x => by simp⟩
  | cons d L ih =>
    intro h0 q
    rw [List.foldl_cons]
    by_cases hqd : q = d
    · subst hqd
      cases hq : h0 q with
      | none =>
        have hstep : rewriteImportsStep o n h0 q = h0 := by
          simp only [rewriteImportsStep, hq]
        rw [hstep]
        obtain ⟨jh1, jh2⟩ := ih h0 q
        rw [hq] at jh1
        refine ⟨jh1, fun v hv => absurd (jh1.mpr rfl) (by rw [hv]; simp)⟩
      | some dn =>
        have hstep : rewriteImportsStep o n h0 q q
            = some ⟨setAdd (setDelete dn.imports o) n, dn.importedBy⟩ := by
          simp only [rewriteImportsStep, hq]
          rw [mapSet_apply, if_pos rfl]
        obtain ⟨jh1, jh2⟩ := ih (rewriteImportsStep o n h0 q) q
        constructor
        · rw [jh1, hstep]
          simp
        · intro v hv
          obtain ⟨hvi, hvb⟩ := jh2 v hv
          rw [nodeAt_eq_of_some hstep] at hvi hvb
          refine ⟨by rw [hvi, nodeAt_eq_of_some hq], fun x => ?_⟩
          rw [hvb x]
          simp only [mem_setAdd, mem_setDelete, nodeAt_eq_of_some hq]
          constructor
          · rintro (⟨⟨hx, hxo⟩ | hx, _⟩ | ⟨_, hx⟩)
            · exact Or.inl ⟨hx, fun _ => hxo⟩
            · exact Or.inr ⟨by simp, hx⟩
            · exact Or.inr ⟨by simp, hx⟩
          · rintro (⟨hx, hxo⟩ | ⟨_, hx⟩)
            · have hxo2 : x ≠ o := hxo (by simp)
              exact Or.inl ⟨Or.inl ⟨hx, hxo2⟩, fun _ => hxo2⟩
            · by_cases hL : q ∈ L
              · exact Or.inr ⟨hL, hx⟩
              · exact Or.inl ⟨Or.inr hx, fun hm => absurd hm hL⟩
    · have hstep : rewriteImportsStep o n h0 d q = h0 q := by
        cases hd : h0 d with
        | none => simp only [rewriteImportsStep, hd]
        | some dn =>
          simp only [rewriteImportsStep, hd]
          rw [mapSet_apply, if_neg hqd]
      have hnode : nodeAt (rewriteImportsStep o n h0 d) q = nodeAt h0 q := by
        unfold nodeAt
        rw [hstep]
      obtain ⟨jh1, jh2⟩ := ih (rewriteImportsStep o n h0 d) q
      refine ⟨jh1.trans (by rw [hstep]), fun v hv => ?_⟩
      obtain ⟨hvi, hvb⟩ := jh2 v hv
      rw [hnode] at hvi hvb
      refine ⟨hvi, fun x => ?_⟩
      rw [hvb x]
      have hmem : q ∈ d :: L ↔ q ∈ L := by
        constructor
        · intro hm
          rcases List.mem_cons.mp hm with h | h
          · exact absurd h hqd
          · exact h
        · exact List.mem_cons_of_mem d
      rw [hmem]

theorem rewriteImportedBy_fold (o n : String) :
    ∀ (L : List String) (h0 : Graph) (q : String),
      ((L.foldl (rewriteImportedByStep o n) h0) q = none ↔ h0 q = none) ∧
      (∀ v, (L.foldl (rewriteImportedByStep o n) h0) q = some v →
        v.imports = (nodeAt h0 q).imports ∧
        ∀ x, x ∈ v.importedBy ↔
          ((x ∈ (nodeAt h0 q).importedBy ∧ (q ∈ L → x ≠ o)) ∨ (q ∈ L ∧ x = n))) := by
  intro L
  induction L with
  | nil =>
    intro h0 q
    refine ⟨Iff.rfl, fun v hv => ?_⟩
    replace hv : h0 q = some v := hv
    rw [nodeAt_eq_of_some hv]
    exact ⟨rfl, fun x => by simp⟩
  | cons d L ih =>
    intro h0 q
    rw [List.foldl_cons]
    by_cases hqd : q = d
    · subst hqd
      cases hq : h0 q with
      | none =>
        have hstep : rewriteImportedByStep o n h0 q = h0 := by
          simp only [rewriteImportedByStep, hq]
        rw [hstep]
        obtain ⟨jh1, jh2⟩ := ih h0 q
        rw [hq] at jh1
        refine ⟨jh1, fun v hv => absurd (jh1.mpr rfl) (by rw [hv]; simp)⟩
      | some dn =>
        have hstep : rewriteImportedByStep o n h0 q q
            = some ⟨dn.imports, setAdd (setDelete dn.importedBy o) n⟩ := by
          simp only [rewriteImportedByStep, hq]
          rw [mapSet_apply, if_pos rfl]
        obtain ⟨jh1, jh2⟩ := ih (rewriteImportedByStep o n h0 q) q
        constructor
        · rw [jh1, hstep]
          simp
        · intro v hv
          obtain ⟨hvi, hvb⟩ := jh2 v hv
          rw [nodeAt_eq_of_some hstep] at hvi hvb
          refine ⟨by rw [hvi, nodeAt_eq_of_some hq], fun x => ?_⟩
          rw [hvb x]
          simp only [mem_setAdd, mem_setDelete, nodeAt_eq_of_some hq]
          constructor
          · rintro (⟨⟨hx, hxo⟩ | hx, _⟩ | ⟨_, hx⟩)
            · exact Or.inl ⟨hx, fun _ => hxo⟩
            · exact Or.inr ⟨by simp, hx⟩
            · exact Or.inr ⟨by simp, hx⟩
          · rintro (⟨hx, hxo⟩ | ⟨_, hx⟩)
            · have hxo2 : x ≠ o := hxo (by simp)
              exact Or.inl ⟨Or.inl ⟨hx, hxo2⟩, fun _ => hxo2⟩
            · by_cases hL : q ∈ L
              · exact Or.inr ⟨hL, hx⟩
              · exact Or.inl ⟨Or.inr hx, fun hm => absurd hm hL⟩
    · have hstep : rewriteImportedByStep o n h0 d q = h0 q := by
        cases hd : h0 d with
        | none => simp only [rewriteImportedByStep, hd]
        | some dn =>
          simp only [rewriteImportedByStep, hd]
          rw [mapSet_apply, if_neg hqd]
      have hnode : nodeAt (rewriteImportedByStep o n h0 d) q = nodeAt h0 q := by
        unfold nodeAt
        rw [hstep]
      obtain ⟨jh1, jh2⟩ := ih (rewriteImportedByStep o n h0 d) q
      refine ⟨jh1.trans (by rw [hstep]), fun v hv => ?_⟩
      obtain ⟨hvi, hvb⟩ := jh2 v hv
      rw [hnode] at hvi hvb
      refine ⟨hvi, fun x => ?_⟩
      rw [hvb x]
      have hmem : q ∈ d :: L ↔ q ∈ L := by
        constructor
        · intro hm
          rcases List.mem_cons.mp hm with h | h
          · exact absurd h hqd
          · exact h
        · exact List.mem_cons_of_mem d
      rw [hmem]

/-! ## Full pointwise characterization of `renameFile` -/

theorem renameFile_eq_stages (g : Graph) (oldPath newPath : String)
    (ho : (g (NodePath.normalize oldPath)).isSome) :
    renameFile g oldPath newPath
      = renameStages g (NodePath.normalize oldPath) (NodePath.normalize newPath) := by
  obtain ⟨v, hv⟩ := Option.isSome_iff_exists.mp ho
  simp only [renameFile, hv]

theorem renameStages_spec (g : Graph) (o n : String)
    (ho : (g o).isSome) (hne : n ≠ o) :
    renameStages g o n o = none ∧
    (∀ q, q ≠ o → ((renameStages g o n q).isSome ↔ q = n ∨ (g q).isSome)) ∧
    (∀ q v, q ≠ o → renameStages g o n q = some v →
      (∀ x, x ∈ v.imports ↔
        (((if q = n then rnMergedImp g o n x else x ∈ (nodeAt g q).imports) ∧
          (rnMergedIB g o n q → x ≠ o)) ∨ (rnMergedIB g o n q ∧ x = n))) ∧
      (∀ x, x ∈ v.importedBy ↔
        (((if q = n then rnMergedIB g o n x else x ∈ (nodeAt g q).importedBy) ∧
          (rnNewImports g o n q → x ≠ o)) ∨ (rnNewImports g o n q ∧ x = n)))) := by
  obtain ⟨ond, hov⟩ := Option.isSome_iff_exists.mp ho
  have hno : ¬ o = n := fun h => hne h.symm
  unfold renameStages
  set B := renameMerge (renameEnsure g n) o n with hBdef
  set C := renameRewriteDependents B o n with hCdef
  set D := renameRewriteImported C o n with hDdef
  -- stage 1: ensure
  have hAo : renameEnsure g n o = some ond := by
    rw [renameEnsure_apply, if_neg hno, hov]
  have hAn : renameEnsure g n n = some (nodeAt g n) := by
    rw [renameEnsure_apply, if_pos rfl]
  -- stage 2: merge
  obtain ⟨hBn, hBq⟩ := renameMerge_apply (renameEnsure g n) o n (by rw [hAn]; rfl)
  rw [nodeAt_eq_of_some hAo, nodeAt_eq_of_some hAn] at hBn
  have hBnB : B n
      = some ⟨ond.imports.foldl setAdd (nodeAt g n).imports,
              ond.importedBy.foldl setAdd (nodeAt g n).importedBy⟩ := hBn
  have hBnode : nodeAt B n
      = ⟨ond.imports.foldl setAdd (nodeAt g n).imports,
         ond.importedBy.foldl setAdd (nodeAt g n).importedBy⟩ := nodeAt_eq_of_some hBn
  have hmi : ∀ x, x ∈ (nodeAt B n).imports ↔ rnMergedImp g o n x := by
    intro x
    rw [hBnode]
    unfold rnMergedImp
    rw [nodeAt_eq_of_some hov]
    exact mem_foldl_setAdd
  have hmb : ∀ x, x ∈ (nodeAt B n).importedBy ↔ rnMergedIB g o n x := by
    intro x
    rw [hBnode]
    unfold rnMergedIB
    rw [nodeAt_eq_of_some hov]
    exact mem_foldl_setAdd
  have hBg : ∀ q, q ≠ n → B q = g q := by
    intro q hq
    rw [hBdef, hBq q hq, renameEnsure_apply, if_neg hq]
  -- stage 3: rewrite the dependents' imports
  have hCeq : C = ((nodeAt B n).importedBy).foldl (rewriteImportsStep o n) B := hCdef
  have hCnone : ∀ q, C q = none ↔ B q = none := by
    intro q
    rw [hCeq]
    exact (rewriteImports_fold o n _ B q).1
  have hCsome : ∀ q v, C q = some v →
      v.importedBy = (nodeAt B q).importedBy ∧
      ∀ x, x ∈ v.imports ↔
        ((x ∈ (nodeAt B q).imports ∧ (rnMergedIB g o n q → x ≠ o)) ∨
         (rnMergedIB g o n q ∧ x = n)) := by
    intro q v hv
    rw [hCeq] at hv
    obtain ⟨h1, h2⟩ := (rewriteImports_fold o n _ B q).2 v hv
    refine ⟨h1, fun x => ?_⟩
    rw [h2 x]
    constructor
    · rintro (⟨hx, hg⟩ | ⟨hq, hx⟩)
      · exact Or.inl ⟨hx, fun hm => hg ((hmb q).mpr hm)⟩
      · exact Or.inr ⟨(hmb q).mp hq, hx⟩
    · rintro (⟨hx, hg⟩ | ⟨hq, hx⟩)
      · exact Or.inl ⟨hx, fun hm => hg ((hmb q).mp hm)⟩
      · exact Or.inr ⟨(hmb q).mpr hq, hx⟩
  have hCn : C n ≠ none := fun h => by
    have hb := (hCnone n).mp h
    rw [hBnB] at hb
    exact Option.noConfusion hb
  obtain ⟨v3, hv3⟩ := Option.ne_none_iff_exists'.mp hCn
  have hv3I : ∀ x, x ∈ v3.imports ↔ rnNewImports g o n x := by
    intro x
    rw [((hCsome n v3 hv3).2) x]
    unfold rnNewImports
    constructor
    · rintro (⟨hx, hg⟩ | h)
      · exact Or.inl ⟨(hmi x).mp hx, hg⟩
      · exact Or.inr h
    · rintro (⟨hx, hg⟩ | h)
      · exact Or.inl ⟨(hmi x).mpr hx, hg⟩
      · exact Or.inr h
  -- stage 4: rewrite the imported files' importedBy
  have hDeq0 : D = ((nodeAt C n).imports).foldl (rewriteImportedByStep o n) C := hDdef
  have hDeq : D = (v3.imports).foldl (rewriteImportedByStep o n) C := by
    rw [hDeq0, nodeAt_eq_of_some hv3]
  have hDnone : ∀ q, D q = none ↔ C q = none := by
    intro q
    rw [hDeq]
    exact (rewriteImportedBy_fold o n _ C q).1
  have hDsome : ∀ q v, D q = some v →
      v.imports = (nodeAt C q).imports ∧
      ∀ x, x ∈ v.importedBy ↔
        ((x ∈ (nodeAt C q).importedBy ∧ (rnNewImports g o n q → x ≠ o)) ∨
         (rnNewImports g o n q ∧ x = n)) := by
    intro q v hv
    rw [hDeq] at hv
    obtain ⟨h1, h2⟩ := (rewriteImportedBy_fold o n _ C q).2 v hv
    refine ⟨h1, fun x => ?_⟩
    rw [h2 x]
    constructor
    · rintro (⟨hx, hg⟩ | ⟨hq, hx⟩)
      · exact Or.inl ⟨hx, fun hm => hg ((hv3I q).mpr hm)⟩
      · exact Or.inr ⟨(hv3I q).mp hq, hx⟩
    · rintro (⟨hx, hg⟩ | ⟨hq, hx⟩)
      · exact Or.inl ⟨hx, fun hm => hg ((hv3I q).mp hm)⟩
      · exact Or.inr ⟨(hv3I q).mpr hq, hx⟩
  refine ⟨by rw [mapDelete_apply, if_pos rfl], ?_, ?_⟩
  · intro q hq
    rw [mapDelete_apply, if_neg hq]
    by_cases hqn : q = n
    · subst hqn
      have hDq : (D q).isSome := by
        rw [Option.isSome_iff_ne_none]
        intro h
        exact hCn ((hDnone q).mp h)
      exact ⟨fun _ => Or.inl rfl, fun _ => hDq⟩
    · have hchain : (D q).isSome ↔ (g q).isSome := by
        rw [Option.isSome_iff_ne_none, Option.isSome_iff_ne_none, ne_eq, ne_eq,
          hDnone q, hCnone q, hBg q hqn]
      rw [hchain]
      exact ⟨Or.inr, fun h => h.resolve_left hqn⟩
  · intro q v hq hv
    rw [mapDelete_apply, if_neg hq] at hv
    obtain ⟨hvi, hvb⟩ := hDsome q v hv
    have hCq : C q ≠ none := fun h => by
      rw [(hDnone q).mpr h] at hv
      exact Option.noConfusion hv
    obtain ⟨w, hw⟩ := Option.ne_none_iff_exists'.mp hCq
    obtain ⟨hwB, hwI⟩ := hCsome q w hw
    have hvi2 : ∀ x, x ∈ v.imports ↔ x ∈ w.imports := by
      intro x
      rw [hvi, nodeAt_eq_of_some hw]
    have hvb2 : ∀ x, x ∈ v.importedBy ↔
        ((x ∈ w.importedBy ∧ (rnNewImports g o n q → x ≠ o)) ∨
         (rnNewImports g o n q ∧ x = n)) := by
      intro x
      rw [hvb x, nodeAt_eq_of_some hw]
    constructor
    · intro x
      rw [hvi2 x, hwI x]
      by_cases hqn : q = n
      · subst hqn
        rw [if_pos rfl, hmi x]
      · rw [if_neg hqn]
        have : nodeAt B q = nodeAt g q := by
          unfold nodeAt
          rw [hBg q hqn]
        rw [this]
    · intro x
      rw [hvb2 x, hwB]
      by_cases hqn : q = n
      · subst hqn
        rw [if_pos rfl, hmb x]
      · rw [if_neg hqn]
        have : nodeAt B q = nodeAt g q := by
          unfold nodeAt
          rw [hBg q hqn]
        rw [this]

/-! ## Full pointwise characterizations of `addOrUpdateFile` and `removeFile` -/

theorem updSetNode_apply (g : Graph) (p : String) (S : List String) (q : String) :
    updSetNode g p S q
      = if q = p then some ⟨S, (nodeAt g p).importedBy⟩ else g q := by
  unfold updSetNode
  have hens := ensure_apply g p
  have hnode : nodeAt (match g p with
      | some _ => g
      | none => mapSet g p ⟨[], []⟩) p = nodeAt g p := by
    unfold nodeAt
    rw [hens p, if_pos rfl]
    rfl
  rw [mapSet_apply, hnode]
  by_cases hq : q = p
  · rw [if_pos hq, if_pos hq]
  · rw [if_neg hq, if_neg hq, hens q, if_neg hq]

theorem addOrUpdateFile_eq (g : Graph) (filePath content : String) :
    addOrUpdateFile g filePath content
      = (updAdded g (NodePath.normalize filePath) content).foldl
          (addImportedByStep (NodePath.normalize filePath))
          ((updRemoved g (NodePath.normalize filePath) content).foldl
            (dropImportedByStep (NodePath.normalize filePath))
            (updSetNode g (NodePath.normalize filePath)
              (newImportsOf (NodePath.dirname (NodePath.normalize filePath)) content))) := by
  cases hp : g (NodePath.normalize filePath) with
  | none =>
    simp only [addOrUpdateFile, updRemoved, updAdded, nodeAt_eq_of_none hp, hp]
  | some nd =>
    simp only [addOrUpdateFile, updRemoved, updAdded, nodeAt_eq_of_some hp, hp]

theorem addOrUpdateFile_spec (g : Graph) (filePath content : String) (p : String)
    (hp : p = NodePath.normalize filePath) :
    (∀ q, ((addOrUpdateFile g filePath content q).isSome ↔
       (g q).isSome ∨ q = p ∨ q ∈ updAdded g p content)) ∧
    (∀ q v, addOrUpdateFile g filePath content q = some v →
      (v.imports = if q = p then newImportsOf (NodePath.dirname p) content
                   else (nodeAt g q).imports) ∧
      (∀ x, x ∈ v.importedBy ↔
        ((x ∈ (nodeAt g q).importedBy ∧ (q ∈ updRemoved g p content → x ≠ p)) ∨
         (q ∈ updAdded g p content ∧ x = p)))) := by
  subst hp
  have heq := addOrUpdateFile_eq g filePath content
  set p := NodePath.normalize filePath with hpd
  set S := newImportsOf (NodePath.dirname p) content with hSd
  set g2 := updSetNode g p S with hg2d
  set R := updRemoved g p content with hRd
  set A := updAdded g p content with hAd
  have hg2 : ∀ q, g2 q = if q = p then some ⟨S, (nodeAt g p).importedBy⟩ else g q :=
    fun q => updSetNode_apply g p S q
  set g3 := R.foldl (dropImportedByStep p) g2 with hg3d
  have h3none : ∀ q, g3 q = none ↔ g2 q = none :=
    fun q => (dropImportedBy_fold p R g2 q).1
  have hg2some : ∀ q, (g2 q).isSome ↔ q = p ∨ (g q).isSome := by
    intro q
    rw [hg2 q]
    by_cases hq : q = p
    · rw [if_pos hq]
      exact ⟨fun _ => Or.inl hq, fun _ => rfl⟩
    · rw [if_neg hq]
      exact ⟨Or.inr, fun h => h.resolve_left hq⟩
  have hg2impNode : ∀ q, (nodeAt g2 q).imports
      = if q = p then S else (nodeAt g q).imports := by
    intro q
    by_cases hq : q = p
    · subst hq
      rw [nodeAt_eq_of_some (show g2 p = some ⟨S, (nodeAt g p).importedBy⟩ by
        rw [hg2 p, if_pos rfl]), if_pos rfl]
    · have hgq : g2 q = g q := by rw [hg2 q, if_neg hq]
      rw [if_neg hq]
      unfold nodeAt
      rw [hgq]
  have hg2ibNode : ∀ q, (nodeAt g2 q).importedBy = (nodeAt g q).importedBy := by
    intro q
    by_cases hq : q = p
    · subst hq
      rw [nodeAt_eq_of_some (show g2 p = some ⟨S, (nodeAt g p).importedBy⟩ by
        rw [hg2 p, if_pos rfl])]
    · have hgq : g2 q = g q := by rw [hg2 q, if_neg hq]
      unfold nodeAt
      rw [hgq]
  have h3imp : ∀ q, (nodeAt g3 q).imports = (nodeAt g2 q).imports := by
    intro q
    cases hq : g3 q with
    | none =>
      rw [nodeAt_eq_of_none hq, nodeAt_eq_of_none ((h3none q).mp hq)]
    | some w =>
      rw [nodeAt_eq_of_some hq, ((dropImportedBy_fold p R g2 q).2 w hq).1]
  have h3ib : ∀ q x, x ∈ (nodeAt g3 q).importedBy ↔
      (x ∈ (nodeAt g2 q).importedBy ∧ (q ∈ R → x ≠ p)) := by
    intro q x
    cases hq : g3 q with
    | none =>
      rw [nodeAt_eq_of_none hq, nodeAt_eq_of_none ((h3none q).mp hq)]
      simp
    | some w =>
      rw [nodeAt_eq_of_some hq]
      exact ((dropImportedBy_fold p R g2 q).2 w hq).2 x
  constructor
  · intro q
    rw [heq]
    rw [(addImportedBy_fold p A g3 q).1]
    have h3some : (g3 q).isSome ↔ (g2 q).isSome := by
      rw [Option.isSome_iff_ne_none, Option.isSome_iff_ne_none, ne_eq, ne_eq, h3none q]
    rw [h3some, hg2some q]
    tauto
  · intro q v hv
    rw [heq] at hv
    obtain ⟨hvi, hvb⟩ := (addImportedBy_fold p A g3 q).2 v hv
    constructor
    · rw [hvi, h3imp q, hg2impNode q]
    · intro x
      rw [hvb x, h3ib q x, hg2ibNode q]

theorem removeFile_noop_when_absent (g : Graph) (filePath : String)
    (ho : g (NodePath.normalize filePath) = none) :
    removeFile g filePath = g := by
  simp only [removeFile, ho]

theorem removeFile_eq (g : Graph) (filePath : String) (node : DependencyInfo)
    (ho : g (NodePath.normalize filePath) = some node) :
    removeFile g filePath
      = mapDelete
          (((nodeAt (node.imports.foldl (dropImportedByStep (NodePath.normalize filePath)) g)
              (NodePath.normalize filePath)).importedBy).foldl
            (dropImportsStep (NodePath.normalize filePath))
            (node.imports.foldl (dropImportedByStep (NodePath.normalize filePath)) g))
          (NodePath.normalize filePath) := by
  simp only [removeFile, ho]

theorem removeFile_spec (g : Graph) (filePath p : String)
    (hp : p = NodePath.normalize filePath) (ho : (g p).isSome) :
    removeFile g filePath p = none ∧
    (∀ q, q ≠ p → ((removeFile g filePath q).isSome ↔ (g q).isSome)) ∧
    (∀ q v, q ≠ p → removeFile g filePath q = some v →
      (∀ x, x ∈ v.imports ↔
        (x ∈ (nodeAt g q).imports ∧ (q ∈ (nodeAt g p).importedBy → x ≠ p))) ∧
      (∀ x, x ∈ v.importedBy ↔
        (x ∈ (nodeAt g q).importedBy ∧ (q ∈ (nodeAt g p).imports → x ≠ p)))) := by
  subst hp
  obtain ⟨node, hov⟩ := Option.isSome_iff_exists.mp ho
  have heq := removeFile_eq g filePath node hov
  set p := NodePath.normalize filePath with hpd
  have hnodeg : nodeAt g p = node := nodeAt_eq_of_some hov
  set g1 := node.imports.foldl (dropImportedByStep p) g with hg1d
  have h1none : ∀ q, g1 q = none ↔ g q = none :=
    fun q => (dropImportedBy_fold p node.imports g q).1
  have h1imp : ∀ q, (nodeAt g1 q).imports = (nodeAt g q).imports := by
    intro q
    cases hq : g1 q with
    | none =>
      rw [nodeAt_eq_of_none hq, nodeAt_eq_of_none ((h1none q).mp hq)]
    | some w =>
      rw [nodeAt_eq_of_some hq, ((dropImportedBy_fold p node.imports g q).2 w hq).1]
  have h1ib : ∀ q x, x ∈ (nodeAt g1 q).importedBy ↔
      (x ∈ (nodeAt g q).importedBy ∧ (q ∈ node.imports → x ≠ p)) := by
    intro q x
    cases hq : g1 q with
    | none =>
      rw [nodeAt_eq_of_none hq, nodeAt_eq_of_none ((h1none q).mp hq)]
      simp
    | some w =>
      rw [nodeAt_eq_of_some hq]
      exact ((dropImportedBy_fold p node.imports g q).2 w hq).2 x
  set L := (nodeAt g1 p).importedBy with hLd
  have hLmem : ∀ q, q ∈ L ↔
      (q ∈ node.importedBy ∧ (p ∈ node.imports → q ≠ p)) := by
    intro q
    rw [hLd, h1ib p q, hnodeg]
  set g2 := L.foldl (dropImportsStep p) g1 with hg2d
  have h2none : ∀ q, g2 q = none ↔ g1 q = none :=
    fun q => (dropImports_fold p L g1 q).1
  refine ⟨by rw [heq, mapDelete_apply, if_pos rfl], ?_, ?_⟩
  · intro q hq
    rw [heq, mapDelete_apply, if_neg hq,
      Option.isSome_iff_ne_none, Option.isSome_iff_ne_none, ne_eq, ne_eq,
      h2none q, h1none q]
  · intro q v hq hv
    rw [heq, mapDelete_apply, if_neg hq] at hv
    obtain ⟨hvb, hvi⟩ := (dropImports_fold p L g1 q).2 v hv
    constructor
    · intro x
      rw [hvi x, h1imp q, hnodeg]
      constructor
      · rintro ⟨hx, hg⟩
        exact ⟨hx, fun hm => hg ((hLmem q).mpr ⟨hm, fun _ => hq⟩)⟩
      · rintro ⟨hx, hg⟩
        exact ⟨hx, fun hm => hg ((hLmem q).mp hm).1⟩
    · intro x
      rw [hvb, h1ib q x, hnodeg]

/-! ## Symmetry and closedness preservation of the graph operations -/

theorem closed_imports_isSome {g : Graph} (hc : ClosedGraph g) {b x : String}
    (hx : x ∈ (nodeAt g b).imports) : (g x).isSome := by
  cases hgb : g b with
  | none =>
    rw [nodeAt_eq_of_none hgb] at hx
    exact absurd hx (List.not_mem_nil x)
  | some n0 =>
    rw [nodeAt_eq_of_some hgb] at hx
    obtain ⟨m, hm⟩ := (hc b n0 hgb).1 x hx
    rw [hm]
    rfl

theorem closed_importedBy_isSome {g : Graph} (hc : ClosedGraph g) {b x : String}
    (hx : x ∈ (nodeAt g b).importedBy) : (g x).isSome := by
  cases hgb : g b with
  | none =>
    rw [nodeAt_eq_of_none hgb] at hx
    exact absurd hx (List.not_mem_nil x)
  | some n0 =>
    rw [nodeAt_eq_of_some hgb] at hx
    obtain ⟨m, hm⟩ := (hc b n0 hgb).2 x hx
    rw [hm]
    rfl

theorem sym_closed_mem {g : Graph} (hs : SymGraph g) (hc : ClosedGraph g) :
    ∀ x y, x ∈ (nodeAt g y).imports ↔ y ∈ (nodeAt g x).importedBy := by
  intro x y
  cases hy : g y with
  | none =>
    rw [nodeAt_eq_of_none hy]
    constructor
    · intro h
      exact absurd h (List.not_mem_nil x)
    · intro h
      have := closed_importedBy_isSome hc h
      rw [hy] at this
      exact absurd this (by simp)
  | some ny =>
    cases hx : g x with
    | none =>
      rw [nodeAt_eq_of_none hx]
      constructor
      · intro h
        have := closed_imports_isSome hc h
        rw [hx] at this
        exact absurd this (by simp)
      · intro h
        exact absurd h (List.not_mem_nil y)
    | some nx =>
      rw [nodeAt_eq_of_some hy, nodeAt_eq_of_some hx]
      exact hs x y nx ny hx hy

theorem renameSafeB_iff (g : Graph) (oldPath newPath : String) :
    renameSafeB g oldPath newPath = true ↔
      (NodePath.normalize newPath ≠ NodePath.normalize oldPath ∧
       NodePath.normalize oldPath ∉ (nodeAt g (NodePath.normalize oldPath)).imports ∧
       NodePath.normalize oldPath ∉ (nodeAt g (NodePath.normalize oldPath)).importedBy) := by
  unfold renameSafeB
  simp [and_assoc]

theorem updAdded_mem (g : Graph) (p content : String) (x : String) :
    x ∈ updAdded g p content ↔
      (x ∈ newImportsOf (NodePath.dirname p) content ∧ x ∉ (nodeAt g p).imports) := by
  unfold updAdded
  simp [List.mem_filter]

theorem updRemoved_mem (g : Graph) (p content : String) (x : String) :
    x ∈ updRemoved g p content ↔
      (x ∈ (nodeAt g p).imports ∧ x ∉ newImportsOf (NodePath.dirname p) content) := by
  unfold updRemoved
  simp [List.mem_filter]

theorem addOrUpdateFile_preserves (g : Graph) (filePath content : String)
    (hs : SymGraph g) (hc : ClosedGraph g) :
    SymGraph (addOrUpdateFile g filePath content) ∧
    ClosedGraph (addOrUpdateFile g filePath content) := by
  obtain ⟨hdom, hval⟩ := addOrUpdateFile_spec g filePath content (NodePath.normalize filePath) rfl
  set p := NodePath.normalize filePath with hpd
  set S := newImportsOf (NodePath.dirname p) content with hSd
  have hsym' := sym_closed_mem hs hc
  have hAmem : ∀ x, x ∈ updAdded g p content ↔ (x ∈ S ∧ x ∉ (nodeAt g p).imports) :=
    updAdded_mem g p content
  have hRmem : ∀ x, x ∈ updRemoved g p content ↔ (x ∈ (nodeAt g p).imports ∧ x ∉ S) :=
    updRemoved_mem g p content
  constructor
  · intro a b na nb ha hb
    obtain ⟨hbi, hbb⟩ := hval b nb hb
    obtain ⟨hai, hab⟩ := hval a na ha
    have hmemi : ∀ x, x ∈ nb.imports ↔ x ∈ (if b = p then S else (nodeAt g b).imports) := by
      intro x
      rw [hbi]
    rw [hmemi a, hab b]
    by_cases hbp : b = p
    · subst hbp
      rw [if_pos rfl]
      constructor
      · intro haS
        by_cases haO : a ∈ (nodeAt g p).imports
        · exact Or.inl ⟨(hsym' a p).mp haO,
            fun hAR => ((((hRmem a).mp hAR).2) haS).elim⟩
        · exact Or.inr ⟨(hAmem a).mpr ⟨haS, haO⟩, rfl⟩
      · rintro (⟨hpb, hg⟩ | ⟨hA, _⟩)
        · have haO : a ∈ (nodeAt g p).imports := (hsym' a p).mpr hpb
          by_cases haS : a ∈ S
          · exact haS
          · exact absurd rfl (hg ((hRmem a).mpr ⟨haO, haS⟩))
        · exact ((hAmem a).mp hA).1
    · rw [if_neg hbp]
      constructor
      · intro h
        exact Or.inl ⟨(hsym' a b).mp h, fun _ => hbp⟩
      · rintro (⟨hb', _⟩ | ⟨_, hbp'⟩)
        · exact (hsym' a b).mpr hb'
        · exact absurd hbp' hbp
  · intro b nb hb
    obtain ⟨hbi, hbb⟩ := hval b nb hb
    constructor
    · intro x hx
      rw [hbi] at hx
      refine Option.isSome_iff_exists.mp ((hdom x).mpr ?_)
      by_cases hbp : b = p
      · subst hbp
        rw [if_pos rfl] at hx
        by_cases hxO : x ∈ (nodeAt g p).imports
        · exact Or.inl (closed_imports_isSome hc hxO)
        · exact Or.inr (Or.inr ((hAmem x).mpr ⟨hx, hxO⟩))
      · rw [if_neg hbp] at hx
        exact Or.inl (closed_imports_isSome hc hx)
    · intro x hx
      refine Option.isSome_iff_exists.mp ((hdom x).mpr ?_)
      rcases (hbb x).mp hx with ⟨hxb, _⟩ | ⟨_, hxp⟩
      · exact Or.inl (closed_importedBy_isSome hc hxb)
      · exact Or.inr (Or.inl hxp)

theorem removeFile_preserves (g : Graph) (filePath : String)
    (hs : SymGraph g) (hc : ClosedGraph g) :
    SymGraph (removeFile g filePath) ∧ ClosedGraph (removeFile g filePath) := by
  cases hov : g (NodePath.normalize filePath) with
  | none =>
    rw [removeFile_noop_when_absent g filePath hov]
    exact ⟨hs, hc⟩
  | some node =>
    obtain ⟨hdel, hdom, hval⟩ :=
      removeFile_spec g filePath (NodePath.normalize filePath) rfl (by rw [hov]; rfl)
    set p := NodePath.normalize filePath with hpd
    have hsym' := sym_closed_mem hs hc
    have hqo : ∀ {q : String} {v : DependencyInfo},
        removeFile g filePath q = some v → q ≠ p := by
      intro q v hv h
      subst h
      rw [hdel] at hv
      exact Option.noConfusion hv
    constructor
    · intro a b na nb ha hb
      have hao := hqo ha
      have hbo := hqo hb
      obtain ⟨hai, hab⟩ := hval a na hao ha
      obtain ⟨hbi, hbb⟩ := hval b nb hbo hb
      rw [hbi a, hab b]
      have e := hsym' a b
      tauto
    · intro b nb hb
      have hbo := hqo hb
      obtain ⟨hbi, hbb⟩ := hval b nb hbo hb
      constructor
      · intro x hx
        obtain ⟨hxg, hguard⟩ := (hbi x).mp hx
        have hxp : x ≠ p := by
          intro h
          subst h
          exact hguard ((hsym' p b).mp hxg) rfl
        exact Option.isSome_iff_exists.mp
          ((hdom x hxp).mpr (closed_imports_isSome hc hxg))
      · intro x hx
        obtain ⟨hxg, hguard⟩ := (hbb x).mp hx
        have hxp : x ≠ p := by
          intro h
          subst h
          exact hguard ((hsym' b p).mpr hxg) rfl
        exact Option.isSome_iff_exists.mp
          ((hdom x hxp).mpr (closed_importedBy_isSome hc hxg))

theorem renameFile_absent_eq (g : Graph) (oldPath newPath : String)
    (ho : g (NodePath.normalize oldPath) = none) :
    renameFile g oldPath newPath = g := by
  simp only [renameFile, ho]

theorem renameFile_preserves (g : Graph) (oldPath newPath : String)
    (hs : SymGraph g) (hc : ClosedGraph g)
    (hne : NodePath.normalize newPath ≠ NodePath.normalize oldPath)
    (hA1 : NodePath.normalize oldPath ∉ (nodeAt g (NodePath.normalize oldPath)).imports)
    (hA2 : NodePath.normalize oldPath ∉ (nodeAt g (NodePath.normalize oldPath)).importedBy) :
    SymGraph (renameFile g oldPath newPath) ∧
    ClosedGraph (renameFile g oldPath newPath) := by
  cases hov : g (NodePath.normalize oldPath) with
  | none =>
    rw [renameFile_absent_eq g oldPath newPath hov]
    exact ⟨hs, hc⟩
  | some ond =>
    rw [renameFile_eq_stages g oldPath newPath (by rw [hov]; rfl)]
    obtain ⟨hdel, hdom, hval⟩ :=
      renameStages_spec g (NodePath.normalize oldPath) (NodePath.normalize newPath)
        (by rw [hov]; rfl) hne
    set o := NodePath.normalize oldPath with hod
    set n := NodePath.normalize newPath with hnd
    have hsym' := sym_closed_mem hs hc
    have hqo : ∀ {q : String} {v : DependencyInfo},
        renameStages g o n q = some v → q ≠ o := by
      intro q v hv h
      subst h
      rw [hdel] at hv
      exact Option.noConfusion hv
    constructor
    · intro a b na nb ha hb
      have hao := hqo ha
      have hbo := hqo hb
      obtain ⟨hbi, hbb⟩ := hval b nb hbo hb
      obtain ⟨hai, hab⟩ := hval a na hao ha
      rw [hbi a, hab b]
      by_cases han : a = n <;> by_cases hbn : b = n
      · subst han
        subst hbn
        rw [if_pos rfl, if_pos rfl]
        constructor
        · rintro (⟨hmi, _⟩ | ⟨hmb, _⟩)
          · exact Or.inr ⟨Or.inl ⟨hmi, fun _ => hne⟩, rfl⟩
          · exact Or.inl ⟨hmb, fun _ => hne⟩
        · rintro (⟨hmb, _⟩ | ⟨hl4, _⟩)
          · exact Or.inr ⟨hmb, rfl⟩
          · rcases (show (rnMergedImp g o n n ∧ (rnMergedIB g o n n → n ≠ o)) ∨
                (rnMergedIB g o n n ∧ n = n) from hl4) with ⟨hmi, _⟩ | ⟨hmb, _⟩
            · exact Or.inl ⟨hmi, fun _ => hne⟩
            · exact Or.inr ⟨hmb, rfl⟩
      · subst han
        rw [if_neg hbn, if_pos rfl]
        constructor
        · rintro (⟨hIb, _⟩ | ⟨hmb, _⟩)
          · exact Or.inl ⟨Or.inl ((hsym' n b).mp hIb), fun _ => hbo⟩
          · exact Or.inl ⟨hmb, fun _ => hbo⟩
        · rintro (⟨hmb, _⟩ | ⟨_, hbn'⟩)
          · exact Or.inr ⟨hmb, rfl⟩
          · exact absurd hbn' hbn
      · subst hbn
        rw [if_pos rfl, if_neg han]
        constructor
        · rintro (⟨hmi, _⟩ | ⟨_, han'⟩)
          · exact Or.inr ⟨Or.inl ⟨hmi, fun _ => hao⟩, rfl⟩
          · exact absurd han' han
        · rintro (⟨hBa, _⟩ | ⟨hl4, _⟩)
          · exact Or.inl ⟨Or.inl ((hsym' a n).mpr hBa), fun _ => hao⟩
          · rcases (show (rnMergedImp g o n a ∧ (rnMergedIB g o n n → a ≠ o)) ∨
                (rnMergedIB g o n n ∧ a = n) from hl4) with ⟨hmi, hg⟩ | ⟨_, han'⟩
            · exact Or.inl ⟨hmi, hg⟩
            · exact absurd han' han
      · rw [if_neg hbn, if_neg han]
        constructor
        · rintro (⟨hI, _⟩ | ⟨_, han'⟩)
          · exact Or.inl ⟨(hsym' a b).mp hI, fun _ => hbo⟩
          · exact absurd han' han
        · rintro (⟨hB, _⟩ | ⟨_, hbn'⟩)
          · exact Or.inl ⟨(hsym' a b).mpr hB, fun _ => hao⟩
          · exact absurd hbn' hbn
    · intro b nb hb
      have hbo := hqo hb
      obtain ⟨hbi, hbb⟩ := hval b nb hbo hb
      constructor
      · intro x hx
        rcases (hbi x).mp hx with ⟨hbase, hguard⟩ | ⟨_, hxn⟩
        · by_cases hxo : x = o
          · subst hxo
            refine absurd rfl (hguard ?_)
            by_cases hbn : b = n
            · subst hbn
              rw [if_pos rfl] at hbase
              have hb2 : o ∈ (nodeAt g n).imports ∨ o ∈ (nodeAt g o).imports := hbase
              rcases hb2 with h | h
              · exact Or.inr ((hsym' o n).mp h)
              · exact absurd h hA1
            · rw [if_neg hbn] at hbase
              exact Or.inr ((hsym' o b).mp hbase)
          · refine Option.isSome_iff_exists.mp ((hdom x hxo).mpr ?_)
            by_cases hbn : b = n
            · subst hbn
              rw [if_pos rfl] at hbase
              have hb2 : x ∈ (nodeAt g n).imports ∨ x ∈ (nodeAt g o).imports := hbase
              rcases hb2 with h | h
              · exact Or.inr (closed_imports_isSome hc h)
              · exact Or.inr (closed_imports_isSome hc h)
            · rw [if_neg hbn] at hbase
              exact Or.inr (closed_imports_isSome hc hbase)
        · subst hxn
          exact Option.isSome_iff_exists.mp ((hdom n hne).mpr (Or.inl rfl))
      · intro x hx
        rcases (hbb x).mp hx with ⟨hbase, hguard⟩ | ⟨_, hxn⟩
        · by_cases hxo : x = o
          · subst hxo
            refine absurd rfl (hguard ?_)
            by_cases hbn : b = n
            · subst hbn
              rw [if_pos rfl] at hbase
              have hb2 : o ∈ (nodeAt g n).importedBy ∨ o ∈ (nodeAt g o).importedBy := hbase
              rcases hb2 with h | h
              · exact Or.inl ⟨Or.inr ((hsym' n o).mpr h), fun _ => hne⟩
              · exact absurd h hA2
            · rw [if_neg hbn] at hbase
              exact Or.inl ⟨Or.inr ((hsym' b o).mpr hbase), fun _ => hbo⟩
          · refine Option.isSome_iff_exists.mp ((hdom x hxo).mpr ?_)
            by_cases hbn : b = n
            · subst hbn
              rw [if_pos rfl] at hbase
              have hb2 : x ∈ (nodeAt g n).importedBy ∨ x ∈ (nodeAt g o).importedBy := hbase
              rcases hb2 with h | h
              · exact Or.inr (closed_importedBy_isSome hc h)
              · exact Or.inr (closed_importedBy_isSome hc h)
            · rw [if_neg hbn] at hbase
              exact Or.inr (closed_importedBy_isSome hc hbase)
        · subst hxn
          exact Option.isSome_iff_exists.mp ((hdom n hne).mpr (Or.inl rfl))

theorem allEmpty_sym_closed (g : Graph)
    (h : ∀ q v, g q = some v → v = ⟨[], []⟩) :
    SymGraph g ∧ ClosedGraph g := by
  constructor
  · intro a b na nb ha hb
    rw [h a na ha, h b nb hb]
    constructor <;> (intro hm; exact absurd hm (List.not_mem_nil _))
  · intro b nb hb
    rw [h b nb hb]
    constructor <;> (intro a ha; exact absurd ha (List.not_mem_nil a))

theorem buildInit_all_empty :
    ∀ (fs : List (String × Option String)) (h0 : Graph),
      (∀ q v, h0 q = some v → v = ⟨[], []⟩) →
      ∀ q v, (fs.foldl buildInitStep h0) q = some v → v = ⟨[], []⟩ := by
  intro fs
  induction fs with
  | nil => exact fun h0 h => h
  | cons f fs ih =>
    intro h0 h
    rw [List.foldl_cons]
    refine ih (buildInitStep h0 f) ?_
    intro q v hqv
    unfold buildInitStep at hqv
    rw [mapSet_apply] at hqv
    by_cases hq : q = NodePath.normalize f.1
    · rw [if_pos hq] at hqv
      exact (Option.some.inj hqv).symm
    · rw [if_neg hq] at hqv
      exact h q v hqv

theorem buildSteps_preserve :
    ∀ (fs : List (String × Option String)) (h0 : Graph),
      SymGraph h0 → ClosedGraph h0 →
      SymGraph (fs.foldl buildStep h0) ∧ ClosedGraph (fs.foldl buildStep h0) := by
  intro fs
  induction fs with
  | nil => exact fun h0 hs hc => ⟨hs, hc⟩
  | cons f fs ih =>
    intro h0 hs hc
    rw [List.foldl_cons]
    have hstep : SymGraph (buildStep h0 f) ∧ ClosedGraph (buildStep h0 f) := by
      unfold buildStep
      cases f.2 with
      | none => exact ⟨hs, hc⟩
      | some content => exact addOrUpdateFile_preserves h0 f.1 content hs hc
    exact ih (buildStep h0 f) hstep.1 hstep.2

theorem buildGraph_sym_closed (files : List (String × Option String)) :
    SymGraph (buildGraph files) ∧ ClosedGraph (buildGraph files) := by
  unfold buildGraph
  have h1 : ∀ q v, (files.foldl buildInitStep emptyGraph) q = some v → v = ⟨[], []⟩ :=
    buildInit_all_empty files emptyGraph (fun q v hqv => Option.noConfusion hqv)
  obtain ⟨hs1, hc1⟩ := allEmpty_sym_closed _ h1
  exact buildSteps_preserve files _ hs1 hc1

theorem applyOps_preserves :
    ∀ (ops : List GraphOp) (g : Graph),
      SymGraph g → ClosedGraph g → renamesSafe g ops = true →
      SymGraph (applyOps g ops) ∧ ClosedGraph (applyOps g ops) := by
  intro ops
  induction ops with
  | nil => exact fun g hs hc _ => ⟨hs, hc⟩
  | cons op ops ih =>
    intro g hs hc hsafe
    simp only [renamesSafe, Bool.and_eq_true] at hsafe
    obtain ⟨h1, h2⟩ := hsafe
    have hfold : applyOps g (op :: ops) = applyOps (applyOp g op) ops := rfl
    rw [hfold]
    have hstep : SymGraph (applyOp g op) ∧ ClosedGraph (applyOp g op) := by
      cases op with
      | add p c => exact addOrUpdateFile_preserves g p c hs hc
      | remove p => exact removeFile_preserves g p hs hc
      | rename oldP newP =>
        obtain ⟨hne, hA1, hA2⟩ := (renameSafeB_iff g oldP newP).mp h1
        exact renameFile_preserves g oldP newP hs hc hne hA1 hA2
    exact ih (applyOp g op) hstep.1 hstep.2 h2

/-! ## C1: edge symmetry after every completed public operation -/

/-- C1 (counterexample): edge symmetry does not hold after every
completed public operation.  Starting from a built graph whose one
file imports itself, a rename followed by a content update of the old path
leaves `/s.civet ∈ imports(/t.civet)` while
`/t.civet ∉ importedBy(/s.civet)`. -/
theorem graph_symmetry_counterexample :
    ¬ SymGraph (applyOps (buildGraph [("/s.civet", some "import './s.civet'")])
        [GraphOp.rename "/s.civet" "/t.civet", GraphOp.add "/s.civet" ""]) := by
  intro h
  have h2 := h "/s.civet" "/t.civet" ⟨[], []⟩ ⟨["/s.civet"], ["/s.civet"]⟩
    (by rfl) (by rfl)
  exact absurd (h2.mp (by decide)) (by decide)

/-- C1 (amended): after the initial build, and after every sequence of
completed public operations in which each rename has distinct normalized
paths and a self-edge-free old node (`renamesSafe`), edge symmetry
holds: for every pair of nodes `A` and `B` in the graph,
`A ∈ imports(B)` iff `B ∈ importedBy(A)`. -/
theorem graph_symmetry_after_safe_ops (files : List (String × Option String))
    (ops : List GraphOp)
    (hsafe : renamesSafe (buildGraph files) ops = true) :
    SymGraph (applyOps (buildGraph files) ops) := by
  obtain ⟨hs, hc⟩ := buildGraph_sym_closed files
  exact (applyOps_preserves ops (buildGraph files) hs hc hsafe).1

/-- C1 (witness): the amended symmetry theorem applied to a concrete
build followed by a safe rename. -/
theorem graph_symmetry_after_safe_ops_witness :
    renamesSafe (buildGraph [("/a.civet", some "import './b.civet'"), ("/b.civet", some "")])
        [GraphOp.rename "/b.civet" "/c.civet"] = true ∧
    SymGraph (applyOps
      (buildGraph [("/a.civet", some "import './b.civet'"), ("/b.civet", some "")])
      [GraphOp.rename "/b.civet" "/c.civet"]) :=
  ⟨by decide,
   graph_symmetry_after_safe_ops
     [("/a.civet", some "import './b.civet'"), ("/b.civet", some "")]
     [GraphOp.rename "/b.civet" "/c.civet"] (by decide)⟩

/-! ## C2: renameFile merges by union, rewrites neighbors, deletes old -/

/-- C2 (counterexample): the pre-rename `imports` set of the old node is
not always a subset of the post-rename `imports` set of the new node:
with a self-importing old node and a populated destination, the
self-edge `/o.civet` is rewritten to `/n.civet`, so `/o.civet` itself is
lost from the merged set. -/
theorem renameFile_subset_counterexample :
    "/o.civet" ∈ (nodeAt c2RaceGraph "/o.civet").imports ∧
    (nodeAt c2RaceGraph "/n.civet").imports ≠ [] ∧
    "/o.civet" ∉ (nodeAt (renameFile c2RaceGraph "/o.civet" "/n.civet") "/n.civet").imports := by
  refine ⟨by decide, by decide, by decide⟩

/-- C2 (amended): for a symmetric, closed graph with a node at the old
path whose normalized path differs from the new one and which carries no
self-edge, `renameFile` deletes the old node, keeps every edge of the
old node in the new node's merged sets, keeps every edge of an existing
destination node up to the old-to-new rewrite, and rewrites every other
neighbor's reference from old to new. -/
theorem renameFile_merges_rewrites_deletes (g : Graph) (oldPath newPath o n : String)
    (ond : DependencyInfo)
    (hoo : o = NodePath.normalize oldPath) (hnn : n = NodePath.normalize newPath)
    (hs : SymGraph g) (hc : ClosedGraph g)
    (ho : g o = some ond) (hne : n ≠ o)
    (hA1 : o ∉ ond.imports) (hA2 : o ∉ ond.importedBy) :
    renameFile g oldPath newPath o = none ∧
    (∀ x ∈ ond.imports, x ∈ (nodeAt (renameFile g oldPath newPath) n).imports) ∧
    (∀ x ∈ ond.importedBy, x ∈ (nodeAt (renameFile g oldPath newPath) n).importedBy) ∧
    (∀ x ∈ (nodeAt g n).imports,
      (if x = o then n else x) ∈ (nodeAt (renameFile g oldPath newPath) n).imports) ∧
    (∀ x ∈ (nodeAt g n).importedBy,
      (if x = o then n else x) ∈ (nodeAt (renameFile g oldPath newPath) n).importedBy) ∧
    (∀ q, q ≠ o → q ≠ n →
      (o ∈ (nodeAt g q).imports →
        n ∈ (nodeAt (renameFile g oldPath newPath) q).imports ∧
        o ∉ (nodeAt (renameFile g oldPath newPath) q).imports) ∧
      (o ∈ (nodeAt g q).importedBy →
        n ∈ (nodeAt (renameFile g oldPath newPath) q).importedBy ∧
        o ∉ (nodeAt (renameFile g oldPath newPath) q).importedBy)) := by
  subst hoo
  subst hnn
  set o := NodePath.normalize oldPath with hod
  set n := NodePath.normalize newPath with hnd
  have heq := renameFile_eq_stages g oldPath newPath (by rw [ho]; rfl)
  rw [heq]
  obtain ⟨hdel, hdom, hval⟩ := renameStages_spec g o n (by rw [ho]; rfl) hne
  have hsym' := sym_closed_mem hs hc
  have hond : nodeAt g o = ond := nodeAt_eq_of_some ho
  obtain ⟨vn, hvn⟩ := Option.isSome_iff_exists.mp ((hdom n hne).mpr (Or.inl rfl))
  obtain ⟨hvnI, hvnB⟩ := hval n vn hne hvn
  have hnodeGn : nodeAt (renameStages g o n) n = vn := nodeAt_eq_of_some hvn
  refine ⟨hdel, ?_, ?_, ?_, ?_, ?_⟩
  · intro x hx
    rw [hnodeGn, hvnI x, if_pos rfl]
    have hxno : x ≠ o := fun h => hA1 (h ▸ hx)
    exact Or.inl ⟨Or.inr (by rw [hond]; exact hx), fun _ => hxno⟩
  · intro x hx
    rw [hnodeGn, hvnB x, if_pos rfl]
    have hxno : x ≠ o := fun h => hA2 (h ▸ hx)
    exact Or.inl ⟨Or.inr (by rw [hond]; exact hx), fun _ => hxno⟩
  · intro x hx
    rw [hnodeGn, hvnI (if x = o then n else x), if_pos rfl]
    by_cases hxo : x = o
    · rw [if_pos hxo]
      subst hxo
      exact Or.inr ⟨Or.inr ((hsym' o n).mp hx), rfl⟩
    · rw [if_neg hxo]
      exact Or.inl ⟨Or.inl hx, fun _ => hxo⟩
  · intro x hx
    rw [hnodeGn, hvnB (if x = o then n else x), if_pos rfl]
    by_cases hxo : x = o
    · rw [if_pos hxo]
      subst hxo
      exact Or.inr ⟨Or.inl ⟨Or.inr ((hsym' n o).mpr hx), fun _ => hne⟩, rfl⟩
    · rw [if_neg hxo]
      exact Or.inl ⟨Or.inl hx, fun _ => hxo⟩
  · intro q hqo hqn
    constructor
    · intro hqi
      have hgq : (g q).isSome := by
        cases hq : g q with
        | none =>
          rw [nodeAt_eq_of_none hq] at hqi
          exact absurd hqi (List.not_mem_nil o)
        | some _ => rfl
      obtain ⟨vq, hvq⟩ := Option.isSome_iff_exists.mp ((hdom q hqo).mpr (Or.inr hgq))
      obtain ⟨hvqI, hvqB⟩ := hval q vq hqo hvq
      have hnodeq : nodeAt (renameStages g o n) q = vq := nodeAt_eq_of_some hvq
      have hMBq : rnMergedIB g o n q := Or.inr ((hsym' o q).mp hqi)
      constructor
      · rw [hnodeq, hvqI n]
        exact Or.inr ⟨hMBq, rfl⟩
      · rw [hnodeq]
        intro hmem
        rcases (hvqI o).mp hmem with ⟨_, hg⟩ | ⟨_, hno⟩
        · exact hg hMBq rfl
        · exact hne hno.symm
    · intro hqb
      have hgq : (g q).isSome := by
        cases hq : g q with
        | none =>
          rw [nodeAt_eq_of_none hq] at hqb
          exact absurd hqb (List.not_mem_nil o)
        | some _ => rfl
      obtain ⟨vq, hvq⟩ := Option.isSome_iff_exists.mp ((hdom q hqo).mpr (Or.inr hgq))
      obtain ⟨hvqI, hvqB⟩ := hval q vq hqo hvq
      have hnodeq : nodeAt (renameStages g o n) q = vq := nodeAt_eq_of_some hvq
      have hL4q : rnNewImports g o n q :=
        Or.inl ⟨Or.inr ((hsym' q o).mpr hqb), fun _ => hqo⟩
      constructor
      · rw [hnodeq, hvqB n]
        exact Or.inr ⟨hL4q, rfl⟩
      · rw [hnodeq]
        intro hmem
        rcases (hvqB o).mp hmem with ⟨_, hg⟩ | ⟨_, hno⟩
        · exact hg hL4q rfl
        · exact hne hno.symm

/-- C2 (witness): the amended rename theorem applied to a built
two-file graph, showing the old node deleted and the dependent edge
carried into the new node. -/
theorem renameFile_merges_rewrites_deletes_witness :
    renameFile (buildGraph [("/a.civet", some "import './b.civet'"), ("/b.civet", some "")])
        "/b.civet" "/c.civet" "/b.civet" = none ∧
    "/a.civet" ∈ (nodeAt
      (renameFile (buildGraph [("/a.civet", some "import './b.civet'"), ("/b.civet", some "")])
        "/b.civet" "/c.civet") "/c.civet").importedBy :=
  have h := renameFile_merges_rewrites_deletes
    (buildGraph [("/a.civet", some "import './b.civet'"), ("/b.civet", some "")])
    "/b.civet" "/c.civet" "/b.civet" "/c.civet" ⟨[], ["/a.civet"]⟩ rfl rfl
    (buildGraph_sym_closed [("/a.civet", some "import './b.civet'"), ("/b.civet", some "")]).1
    (buildGraph_sym_closed [("/a.civet", some "import './b.civet'"), ("/b.civet", some "")]).2
    rfl (by decide) (by decide) (by decide)
  ⟨h.1, h.2.2.1 "/a.civet" (by decide)⟩

/-! ## C5 builder lemmas -/

theorem quoteWrap_match (oc : Option Char) (ns : String) :
    (match oc with
     | some q => String.mk (q :: (stripQuotesS ns).toList ++ [q])
     | none => stripQuotesS ns) = quoteWrap oc ns := by
  cases oc <;> rfl

theorem buildCivetImportEdit_newText (doc : TextDocument) (m : ImportMatch) (ns : String) :
    ∃ q : Option Char, (buildCivetImportEdit doc m ns).newText = quoteWrap q ns ∧
      matchSliceQuote doc.text m q := by
  refine ⟨match getTextRange doc.text
      ⟨positionAt doc.text m.offset, positionAt doc.text (m.offset + m.length)⟩ with
    | c :: _ => if c = '"' ∨ c = '\'' then some c else none
    | [] => none, ?_, ?_⟩
  · simp only [buildCivetImportEdit]
    cases hslice : getTextRange doc.text
        ⟨positionAt doc.text m.offset, positionAt doc.text (m.offset + m.length)⟩ with
    | nil => rfl
    | cons c tl =>
      dsimp only
      by_cases hc : c = '"' ∨ c = '\''
      · rw [if_pos hc]
        rfl
      · rw [if_neg hc]
        rfl
  · unfold matchSliceQuote
    cases hslice : getTextRange doc.text
        ⟨positionAt doc.text m.offset, positionAt doc.text (m.offset + m.length)⟩ with
    | nil => rfl
    | cons c tl => rfl

theorem recAppend_recok (P : TextEdit → Prop) :
    ∀ (acc : List (String × List TextEdit)) (uri : String) (e' : TextEdit),
      editsRecOK P acc → P e' → editsRecOK P (recAppend acc uri e') := by
  intro acc
  induction acc with
  | nil =>
    intro uri e' _ hP ke hke e he
    rcases List.mem_singleton.mp hke with rfl
    cases List.mem_singleton.mp he
    exact hP
  | cons hd r ih =>
    obtain ⟨k, es⟩ := hd
    intro uri e' hok hP ke hke e he
    simp only [recAppend] at hke
    by_cases hk : k = uri
    · rw [if_pos hk] at hke
      rcases List.mem_cons.mp hke with rfl | hmem
      · rcases List.mem_append.mp he with h | h
        · exact hok (k, es) (List.mem_cons_self _ _) e h
        · cases List.mem_singleton.mp h
          exact hP
      · exact hok ke (List.mem_cons_of_mem _ hmem) e he
    · rw [if_neg hk] at hke
      rcases List.mem_cons.mp hke with rfl | hmem
      · exact hok (k, es) (List.mem_cons_self _ _) e he
      · exact ih uri e' (fun ke' hke' => hok ke' (List.mem_cons_of_mem _ hke')) hP ke hmem e he

theorem foldl_recok_mem {α : Type} (P : TextEdit → Prop)
    (step : List (String × List TextEdit) → α → List (String × List TextEdit)) :
    ∀ (L : List α),
      (∀ acc a, a ∈ L → editsRecOK P acc → editsRecOK P (step acc a)) →
      ∀ acc, editsRecOK P acc → editsRecOK P (L.foldl step acc) := by
  intro L
  induction L with
  | nil => exact fun _ acc h => h
  | cons a L ih =>
    intro hstep acc hok
    rw [List.foldl_cons]
    exact ih (fun acc2 b hb => hstep acc2 b (List.mem_cons_of_mem a hb)) _
      (hstep acc a (List.mem_cons_self a L) hok)

theorem buildManualImportStep_recok (P : TextEdit → Prop)
    (oldPath newPath sourcePath uri : String) (doc : TextDocument)
    (acc2 : List (String × List TextEdit)) (m : ImportMatch)
    (hok : editsRecOK P acc2)
    (hP : P (buildCivetImportEdit doc m
      (civetReplacementSpec (NodePath.dirname sourcePath) newPath
        (String.mk (stripQuotes m.spec))))) :
    editsRecOK P (buildManualImportStep oldPath newPath sourcePath uri doc acc2 m) := by
  simp only [buildManualImportStep]
  split_ifs with h1 h2
  · exact recAppend_recok P acc2 uri _ hok hP
  · exact hok
  · exact hok

theorem buildManual_edits_ok (oldPath newPath : String)
    (documents : String → Option TextDocument) (disk : String → Option String)
    (candidateFiles : List String) :
    ∀ de ∈ buildManualCivetWorkspaceEdits oldPath newPath documents disk candidateFiles,
      ∀ e ∈ de.edits, builderEditOK newPath documents disk candidateFiles e := by
  intro de hde e he
  have hfold : editsRecOK (builderEditOK newPath documents disk candidateFiles)
      (candidateFiles.foldl (buildManualFileStep oldPath newPath documents disk) []) := by
    refine foldl_recok_mem _ _ candidateFiles ?_ []
      (fun ke hke => absurd hke (List.not_mem_nil ke))
    intro acc sp hsp hok
    simp only [buildManualFileStep]
    cases hcc : candidateContent documents disk sp with
    | none => exact hok
    | some content =>
      dsimp only
      split_ifs with h1 h2
      · exact hok
      · exact hok
      · refine foldl_recok_mem _ _ (findAllImports content) ?_ acc hok
        intro acc2 m hm hok2
        refine buildManualImportStep_recok _ oldPath newPath sp (pathToFileUrl sp) _ acc2 m hok2 ?_
        obtain ⟨q, hq⟩ := buildCivetImportEdit_newText
          ⟨pathToFileUrl sp, content, 0⟩ m
          (civetReplacementSpec (NodePath.dirname sp) newPath (String.mk (stripQuotes m.spec)))
        exact ⟨sp, hsp, content, hcc, m, hm, q, hq.1, hq.2⟩
  unfold buildManualCivetWorkspaceEdits at hde
  obtain ⟨e0, he0, hfe⟩ := List.mem_map.mp hde
  have hedits : de.edits = e0.2 := by
    rw [← hfe]
    cases documents e0.1 <;> rfl
  rw [hedits] at he
  exact hfold e0 he0 e he

/-! ## C5: file-move builder on the three-file chain, and its
replacement specifiers -/

/-- C5: on the chain `a → ./b → ./c`, renaming `b` to `bee` produces
exactly one edit, located in `a`, replacing the quoted `./b` specifier
(characters 18–23 of line 0) by the quoted `./bee`, and no edit in `c`;
and in general every edit produced by the manual builder has as its
replacement text the relative path from the dependent's directory to the
new path, with the original import's extension style, a leading
dot-slash, and an optional wrapping original quote character. -/
theorem builder_chain_and_replacement_spec :
    computeRenameEditsModel c5Graph c5Docs c5Disk [("/b.civet", "/bee.civet")]
      = [⟨"file:///a.civet", none, [⟨⟨⟨0, 18⟩, ⟨0, 23⟩⟩, "'./bee'"⟩]⟩] ∧
    ∀ (oldPath newPath : String) (documents : String → Option TextDocument)
      (disk : String → Option String) (candidateFiles : List String),
      ∀ de ∈ buildManualCivetWorkspaceEdits oldPath newPath documents disk candidateFiles,
        ∀ e ∈ de.edits, builderEditOK newPath documents disk candidateFiles e :=
  ⟨by decide, fun oldPath newPath documents disk candidateFiles =>
    buildManual_edits_ok oldPath newPath documents disk candidateFiles⟩

/-- C5 (witness): the general replacement-text conjunct applied to the
concrete edit the builder produces in the chain scenario. -/
theorem builder_chain_and_replacement_spec_witness :
    (⟨"file:///a.civet", none, [⟨⟨⟨0, 18⟩, ⟨0, 23⟩⟩, "'./bee'"⟩]⟩ : TextDocumentEdit)
      ∈ buildManualCivetWorkspaceEdits "/b.civet" "/bee.civet" c5Docs c5Disk
          ["/a.civet", "/b.civet", "/c.civet"] ∧
    builderEditOK "/bee.civet" c5Docs c5Disk ["/a.civet", "/b.civet", "/c.civet"]
      ⟨⟨⟨0, 18⟩, ⟨0, 23⟩⟩, "'./bee'"⟩ :=
  ⟨by decide,
   builder_chain_and_replacement_spec.2 "/b.civet" "/bee.civet" c5Docs c5Disk
     ["/a.civet", "/b.civet", "/c.civet"]
     ⟨"file:///a.civet", none, [⟨⟨⟨0, 18⟩, ⟨0, 23⟩⟩, "'./bee'"⟩]⟩ (by decide)
     ⟨⟨⟨0, 18⟩, ⟨0, 23⟩⟩, "'./bee'"⟩ (by decide)⟩


/-! ## C6 range-recovery lemmas -/

theorem countWhile_sat (p : Char → Bool) :
    ∀ (l : List Char) (j : Nat), j < countWhile p l → p (charD l j) = true := by
  intro l
  induction l with
  | nil => intro j h; simp [countWhile] at h
  | cons c r ih =>
    intro j h
    simp only [countWhile] at h
    by_cases hp : p c
    · rw [if_pos hp] at h
      cases j with
      | zero => exact hp
      | succ j => exact ih j (by omega)
    · rw [if_neg hp] at h
      omega

theorem countWhile_stop (p : Char → Bool) :
    ∀ l : List Char, countWhile p l < l.length → p (charD l (countWhile p l)) = false := by
  intro l
  induction l with
  | nil => intro h; simp [countWhile] at h
  | cons c r ih =>
    intro h
    simp only [countWhile] at h ⊢
    by_cases hp : p c
    · rw [if_pos hp] at h ⊢
      exact ih (by simp only [List.length_cons] at h; omega)
    · rw [if_neg hp]
      cases hc : p c with
      | true => exact absurd hc hp
      | false => exact hc

theorem charD_drop (l : List Char) (a j : Nat) :
    charD (l.drop a) j = charD l (a + j) := by
  unfold charD
  rw [List.getD, List.getD, List.get?_drop]

theorem recoverTokenBounds_spec (text : List Char) (so : Nat) :
    so ≤ (recoverTokenBounds text so).1 ∧
    (recoverTokenBounds text so).1 ≤ (recoverTokenBounds text so).2 ∧
    (∀ i, so ≤ i → i < (recoverTokenBounds text so).1 → isWs (charD text i) = true) ∧
    ((recoverTokenBounds text so).1 < text.length →
      isWs (charD text (recoverTokenBounds text so).1) = false) ∧
    (∀ i, (recoverTokenBounds text so).1 ≤ i → i < (recoverTokenBounds text so).2 →
      isIdentCont (charD text i) = true) ∧
    ((recoverTokenBounds text so).2 < text.length →
      isIdentCont (charD text (recoverTokenBounds text so).2) = false) := by
  have h1 : (recoverTokenBounds text so).1 = so + countWhile isWs (text.drop so) := rfl
  have h2 : (recoverTokenBounds text so).2
      = (recoverTokenBounds text so).1
        + countWhile isIdentCont (text.drop (recoverTokenBounds text so).1) := rfl
  refine ⟨by rw [h1]; omega, by rw [h2]; omega, ?_, ?_, ?_, ?_⟩
  · intro i hsoi hia
    rw [h1] at hia
    have hj : i - so < countWhile isWs (text.drop so) := by omega
    have hcw := countWhile_sat isWs (text.drop so) (i - so) hj
    rw [charD_drop, Nat.add_sub_cancel' hsoi] at hcw
    exact hcw
  · intro hlt
    rw [h1] at hlt ⊢
    have hlen : countWhile isWs (text.drop so) < (text.drop so).length := by
      rw [List.length_drop]
      omega
    have hcw := countWhile_stop isWs (text.drop so) hlen
    rw [charD_drop] at hcw
    exact hcw
  · intro i hai hib
    rw [h2] at hib
    have hj : i - (recoverTokenBounds text so).1
        < countWhile isIdentCont (text.drop (recoverTokenBounds text so).1) := by omega
    have hcw := countWhile_sat isIdentCont _ _ hj
    rw [charD_drop, Nat.add_sub_cancel' hai] at hcw
    exact hcw
  · intro hlt
    rw [h2] at hlt ⊢
    have hlen : countWhile isIdentCont (text.drop (recoverTokenBounds text so).1)
        < (text.drop (recoverTokenBounds text so).1).length := by
      rw [List.length_drop]
      omega
    have hcw := countWhile_stop isIdentCont _ hlen
    rw [charD_drop] at hcw
    exact hcw

theorem renameLocStep_sourcemap_recovery
    (svc : RenameService) (deps : RenameDeps) (prog : List SourceFileInfo)
    (newName : String) (st : WorkspaceChanges × List AliasChange)
    (edit : EngineRenameLocation) (sf : SourceFileInfo) (doc : TextDocument) (sml : Nat)
    (hsf : prog.find? (fun s => s.fileName = edit.fileName) = some sf)
    (hdoc : deps.documents (pathToFileUrl (svc.sourceFileNameOf edit.fileName)) = some doc)
    (hmeta : (svc.metaOf (svc.sourceFileNameOf edit.fileName)).bind
        (fun meta => meta.sourcemapLines) = some sml)
    (hnopre : edit.prefixText = none) (hnosuf : edit.suffixText = none) :
    renameLocStep svc deps prog newName st edit =
      if (recoverTokenBounds doc.text
            (offsetAt doc.text (deps.remapPos (positionAt sf.text edit.textSpan.start) sml))).1
          = (recoverTokenBounds doc.text
            (offsetAt doc.text (deps.remapPos (positionAt sf.text edit.textSpan.start) sml))).2
      then (recEnsure st.1 (pathToFileUrl (svc.sourceFileNameOf edit.fileName)), st.2)
      else (recAppend (recEnsure st.1 (pathToFileUrl (svc.sourceFileNameOf edit.fileName)))
          (pathToFileUrl (svc.sourceFileNameOf edit.fileName))
          ⟨⟨positionAt doc.text (recoverTokenBounds doc.text
              (offsetAt doc.text (deps.remapPos (positionAt sf.text edit.textSpan.start) sml))).1,
            positionAt doc.text (recoverTokenBounds doc.text
              (offsetAt doc.text (deps.remapPos (positionAt sf.text edit.textSpan.start) sml))).2⟩,
            newName⟩, st.2) := by
  simp only [renameLocStep, hsf, hdoc, hmeta, hnopre, hnosuf, Option.isSome_none]
  set B := recoverTokenBounds doc.text
    (offsetAt doc.text (deps.remapPos (positionAt sf.text edit.textSpan.start) sml)) with hB
  by_cases hb : B.1 = B.2
  · rw [if_pos hb, if_pos hb]
  · rw [if_neg hb, if_neg hb]
    rfl

/-! ## C6: symbol-rename range recovery -/

/-- C6: range recovery skips leading whitespace from the mapped start
offset, scans forward over identifier-continuation characters to the
token's true end (first conjunct); with sourcemap metadata present, a
location is resolved from its start position alone — its claimed span
length is never consulted — and it is discarded entirely when zero
characters match (second conjunct); on `console.log abc` with an engine
location claiming a 4-character span starting at the space before
`abc`, recovery yields exactly the 3-character span covering `abc`
(third conjunct). -/
theorem range_recovery_spec :
    (∀ (text : List Char) (so : Nat),
      so ≤ (recoverTokenBounds text so).1 ∧
      (recoverTokenBounds text so).1 ≤ (recoverTokenBounds text so).2 ∧
      (∀ i, so ≤ i → i < (recoverTokenBounds text so).1 → isWs (charD text i) = true) ∧
      ((recoverTokenBounds text so).1 < text.length →
        isWs (charD text (recoverTokenBounds text so).1) = false) ∧
      (∀ i, (recoverTokenBounds text so).1 ≤ i → i < (recoverTokenBounds text so).2 →
        isIdentCont (charD text i) = true) ∧
      ((recoverTokenBounds text so).2 < text.length →
        isIdentCont (charD text (recoverTokenBounds text so).2) = false)) ∧
    (∀ (svc : RenameService) (deps : RenameDeps) (prog : List SourceFileInfo)
        (newName : String) (st : WorkspaceChanges × List AliasChange)
        (edit : EngineRenameLocation) (sf : SourceFileInfo) (doc : TextDocument) (sml : Nat),
      prog.find? (fun s => s.fileName = edit.fileName) = some sf →
      deps.documents (pathToFileUrl (svc.sourceFileNameOf edit.fileName)) = some doc →
      (svc.metaOf (svc.sourceFileNameOf edit.fileName)).bind
          (fun meta => meta.sourcemapLines) = some sml →
      edit.prefixText = none → edit.suffixText = none →
      renameLocStep svc deps prog newName st edit =
        if (recoverTokenBounds doc.text
              (offsetAt doc.text (deps.remapPos (positionAt sf.text edit.textSpan.start) sml))).1
            = (recoverTokenBounds doc.text
              (offsetAt doc.text (deps.remapPos (positionAt sf.text edit.textSpan.start) sml))).2
        then (recEnsure st.1 (pathToFileUrl (svc.sourceFileNameOf edit.fileName)), st.2)
        else (recAppend (recEnsure st.1 (pathToFileUrl (svc.sourceFileNameOf edit.fileName)))
            (pathToFileUrl (svc.sourceFileNameOf edit.fileName))
            ⟨⟨positionAt doc.text (recoverTokenBounds doc.text
                (offsetAt doc.text (deps.remapPos (positionAt sf.text edit.textSpan.start) sml))).1,
              positionAt doc.text (recoverTokenBounds doc.text
                (offsetAt doc.text (deps.remapPos (positionAt sf.text edit.textSpan.start) sml))).2⟩,
              newName⟩, st.2)) ∧
    handleRename c6Plan (some c6Svc) c6Deps
      = some [("file:///m.civet", [⟨⟨⟨0, 12⟩, ⟨0, 15⟩⟩, "xyz"⟩])] :=
  ⟨recoverTokenBounds_spec,
   fun svc deps prog newName st edit sf doc sml hsf hdoc hmeta hnopre hnosuf =>
     renameLocStep_sourcemap_recovery svc deps prog newName st edit sf doc sml
       hsf hdoc hmeta hnopre hnosuf,
   by rfl⟩

/-- C6 (witness): the pinned-branch recovery equation applied to the
concrete scenario location, evaluated to the recovered `abc` span. -/
theorem range_recovery_spec_witness :
    renameLocStep c6Svc c6Deps [⟨"/m.ts", c6Text⟩] "xyz" ([], []) ⟨"/m.ts", ⟨11, 4⟩, none, none⟩
      = ([("file:///m.civet", [⟨⟨⟨0, 12⟩, ⟨0, 15⟩⟩, "xyz"⟩])], []) := by
  rw [range_recovery_spec.2.1 c6Svc c6Deps [⟨"/m.ts", c6Text⟩] "xyz" ([], [])
      ⟨"/m.ts", ⟨11, 4⟩, none, none⟩ ⟨"/m.ts", c6Text⟩ ⟨"file:///m.civet", c6Text, 1⟩ 0
      (by decide) (by decide) (by decide) rfl rfl]
  rfl


/-! ## C7 alias-drop lemmas -/

theorem renameLocStep_alias_policy
    (svc : RenameService) (deps : RenameDeps) (prog : List SourceFileInfo)
    (newName : String) (st : WorkspaceChanges × List AliasChange)
    (edit : EngineRenameLocation) (sf : SourceFileInfo) (doc : TextDocument)
    (hsf : prog.find? (fun s => s.fileName = edit.fileName) = some sf)
    (hdoc : deps.documents (pathToFileUrl (svc.sourceFileNameOf edit.fileName)) = some doc)
    (hmeta : (svc.metaOf (svc.sourceFileNameOf edit.fileName)).bind
        (fun meta => meta.sourcemapLines) = none)
    (suf : String) (hsuf : edit.suffixText = some suf) :
    renameLocStep svc deps prog newName st edit =
      if startsWithS (trimStartJS suf) "as "
         ∧ trimJS ((trimStartJS suf).drop 3)
            = String.mk (getTextRange doc.text
                ⟨positionAt sf.text edit.textSpan.start,
                 positionAt sf.text (edit.textSpan.start + edit.textSpan.length)⟩)
      then
        (recAppend (recEnsure st.1 (pathToFileUrl (svc.sourceFileNameOf edit.fileName)))
           (pathToFileUrl (svc.sourceFileNameOf edit.fileName))
           ⟨⟨positionAt sf.text edit.textSpan.start,
             positionAt sf.text (edit.textSpan.start + edit.textSpan.length)⟩,
            edit.prefixText.getD "" ++ newName⟩,
         st.2 ++ [⟨svc.sourceFileNameOf edit.fileName,
           String.mk (getTextRange doc.text
             ⟨positionAt sf.text edit.textSpan.start,
              positionAt sf.text (edit.textSpan.start + edit.textSpan.length)⟩), newName⟩])
      else
        (recAppend (recEnsure st.1 (pathToFileUrl (svc.sourceFileNameOf edit.fileName)))
           (pathToFileUrl (svc.sourceFileNameOf edit.fileName))
           ⟨⟨positionAt sf.text edit.textSpan.start,
             positionAt sf.text (edit.textSpan.start + edit.textSpan.length)⟩,
            edit.prefixText.getD "" ++ newName ++ suf⟩, st.2) := by
  simp only [renameLocStep, hsf, hdoc, hmeta, hsuf, Option.isSome_some, Option.getD_some]
  rw [if_pos (Or.inr trivial), if_pos trivial]

/-! ## C7: alias-drop and alias propagation -/

/-- C7: when an engine location's suffix text trims to exactly
`as <current identifier text at the recovered range>`, the produced
replacement is `prefix + newName` with the alias suffix dropped and the
change is queued for alias propagation; any other location with
prefix/suffix text gets `prefix + newName + suffix` (first conjunct);
in the scenario, renaming the aliased export adds exactly one propagated
edit in the other file whose import brace clause references `oldAlias`
from the same module, and none in the file importing a different name
(second conjunct). -/
theorem alias_drop_and_propagation :
    (∀ (svc : RenameService) (deps : RenameDeps) (prog : List SourceFileInfo)
        (newName : String) (st : WorkspaceChanges × List AliasChange)
        (edit : EngineRenameLocation) (sf : SourceFileInfo) (doc : TextDocument),
      prog.find? (fun s => s.fileName = edit.fileName) = some sf →
      deps.documents (pathToFileUrl (svc.sourceFileNameOf edit.fileName)) = some doc →
      (svc.metaOf (svc.sourceFileNameOf edit.fileName)).bind
          (fun meta => meta.sourcemapLines) = none →
      ∀ suf, edit.suffixText = some suf →
      renameLocStep svc deps prog newName st edit =
        if startsWithS (trimStartJS suf) "as "
           ∧ trimJS ((trimStartJS suf).drop 3)
              = String.mk (getTextRange doc.text
                  ⟨positionAt sf.text edit.textSpan.start,
                   positionAt sf.text (edit.textSpan.start + edit.textSpan.length)⟩)
        then
          (recAppend (recEnsure st.1 (pathToFileUrl (svc.sourceFileNameOf edit.fileName)))
             (pathToFileUrl (svc.sourceFileNameOf edit.fileName))
             ⟨⟨positionAt sf.text edit.textSpan.start,
               positionAt sf.text (edit.textSpan.start + edit.textSpan.length)⟩,
              edit.prefixText.getD "" ++ newName⟩,
           st.2 ++ [⟨svc.sourceFileNameOf edit.fileName,
             String.mk (getTextRange doc.text
               ⟨positionAt sf.text edit.textSpan.start,
                positionAt sf.text (edit.textSpan.start + edit.textSpan.length)⟩), newName⟩])
        else
          (recAppend (recEnsure st.1 (pathToFileUrl (svc.sourceFileNameOf edit.fileName)))
             (pathToFileUrl (svc.sourceFileNameOf edit.fileName))
             ⟨⟨positionAt sf.text edit.textSpan.start,
               positionAt sf.text (edit.textSpan.start + edit.textSpan.length)⟩,
              edit.prefixText.getD "" ++ newName ++ suf⟩, st.2)) ∧
    handleRename c7Plan (some c7Svc) c7Deps
      = some [("file:///m.civet", [⟨⟨⟨0, 0⟩, ⟨0, 8⟩⟩, "newName"⟩]),
              ("file:///f.civet", [⟨⟨⟨0, 9⟩, ⟨0, 17⟩⟩, "newName"⟩])] :=
  ⟨fun svc deps prog newName st edit sf doc hsf hdoc hmeta suf hsuf =>
     renameLocStep_alias_policy svc deps prog newName st edit sf doc hsf hdoc hmeta suf hsuf,
   by rfl⟩

/-- C7 (witness): the alias-drop branch equation applied to a concrete
location whose suffix trims to the current identifier, evaluated: the
replacement drops the alias and the change is queued. -/
theorem alias_drop_and_propagation_witness :
    renameLocStep { c7Svc with metaOf := fun _ => some ⟨none⟩ } c7Deps
        [⟨"/m.ts", c7MText⟩] "newName"
        ([], []) ⟨"/m.ts", ⟨0, 8⟩, none, some " as oldAlias"⟩
      = ([("file:///m.civet", [⟨⟨⟨0, 0⟩, ⟨0, 8⟩⟩, "newName"⟩])],
         [⟨"/m.civet", "oldAlias", "newName"⟩]) := by
  rw [alias_drop_and_propagation.1 { c7Svc with metaOf := fun _ => some ⟨none⟩ } c7Deps
      [⟨"/m.ts", c7MText⟩] "newName" ([], []) ⟨"/m.ts", ⟨0, 8⟩, none, some " as oldAlias"⟩
      ⟨"/m.ts", c7MText⟩ ⟨"file:///m.civet", c7MText, 1⟩
      (by decide) (by decide) (by decide) " as oldAlias" rfl]
  rfl


/-! ## C10: renaming a path with no node is a no-op -/

/-- C10: calling `renameFile(old, new)` when no node exists at the
normalized old path leaves the graph exactly unchanged — in particular no
node is created at the new path and no neighbor's edge sets change. -/
theorem renameFile_noop_when_old_absent (g : Graph) (oldPath newPath : String)
    (h : g (NodePath.normalize oldPath) = none) :
    renameFile g oldPath newPath = g := by
  simp only [renameFile, h]

/-- Witness for C10 at a concrete graph holding one unrelated edge. -/
theorem renameFile_noop_when_old_absent_witness :
    (addOrUpdateFile emptyGraph "/x.civet" "import './y.civet'") (NodePath.normalize "/a.civet") = none ∧
    renameFile (addOrUpdateFile emptyGraph "/x.civet" "import './y.civet'") "/a.civet" "/b.civet"
      = addOrUpdateFile emptyGraph "/x.civet" "import './y.civet'" :=
  ⟨by decide,
   renameFile_noop_when_old_absent (addOrUpdateFile emptyGraph "/x.civet" "import './y.civet'")
     "/a.civet" "/b.civet" (by decide)⟩

/-! ## C8: an engine exception in find-rename-locations yields null -/

/-- C8: when the engine's `findRenameLocations` throws, `handleRename`
catches the exception and returns the no-result value instead of
propagating it (the embedding is a total function, so no other exception
can escape this entry point either). -/
theorem handleRename_engine_throw_returns_none (plan : RenamePlan) (svc : RenameService)
    (deps : RenameDeps) (e : String) (h : svc.findLocations = Except.error e) :
    handleRename plan (some svc) deps = none := by
  simp only [handleRename, h]

/-- Witness for C8 at a concrete throwing service. -/
theorem handleRename_engine_throw_returns_none_witness :
    handleRename ⟨"/m.ts", 0, "x"⟩
      (some ⟨Except.error "engine exploded", none, fun n => n, fun _ => none⟩)
      ⟨fun _ => none, [], fun p _ => p, fun _ => none⟩ = none :=
  handleRename_engine_throw_returns_none ⟨"/m.ts", 0, "x"⟩
    ⟨Except.error "engine exploded", none, fun n => n, fun _ => none⟩
    ⟨fun _ => none, [], fun p _ => p, fun _ => none⟩ "engine exploded" rfl

/-! ## C9: ordering of graph queries, graph readiness and the response -/

/-- C9 counterexample: the claim that every `getDependentsOf` query of
the will-rename flow runs only after the graph's readiness has been
awaited is false: for a one-file rename batch the trace places the query
(index 1) before the readiness await (index 4). -/
theorem willRename_query_after_ready_counterexample :
    ¬ (∀ (files : List (String × String)) (i j : Nat) (p : String),
        (onWillRenameFilesTrace files).get? i = some (RenameEvent.dependentsQuery p) →
        (onWillRenameFilesTrace files).get? j = some RenameEvent.awaitGraphReady →
        j < i) := by
  intro h
  have h14 := h [("/b.civet", "/bee.civet")] 1 4 "/b.civet" (by decide) (by decide)
  exact absurd h14 (by decide)

/-- C9 amended: the handler awaits the graph's readiness before
responding, but the `getDependentsOf` queries that build the candidate
set are performed before that await (hence possibly before the initial
build completes). -/
theorem willRename_awaits_ready_before_respond (files : List (String × String)) :
    ∃ ja jr,
      (onWillRenameFilesTrace files).get? ja = some RenameEvent.awaitGraphReady ∧
      (onWillRenameFilesTrace files).get? jr = some RenameEvent.respond ∧
      ja < jr ∧
      ∀ i p, (onWillRenameFilesTrace files).get? i = some (RenameEvent.dependentsQuery p) →
        i < ja := by
  classical
  set t := computeRenameEditsTrace files with ht
  refine ⟨t.length + 1, t.length + 2, ?_, ?_, by omega, ?_⟩
  · show (t ++ [RenameEvent.awaitGraphReady, RenameEvent.respond]).get? t.length
      = some RenameEvent.awaitGraphReady
    rw [List.get?_append_right le_rfl]
    simp
  · show (t ++ [RenameEvent.awaitGraphReady, RenameEvent.respond]).get? (t.length + 1)
      = some RenameEvent.respond
    rw [List.get?_append_right (by omega)]
    have h1 : t.length + 1 - t.length = 1 := by omega
    rw [h1]
    rfl
  · intro i p hi
    by_contra hge
    push_neg at hge
    obtain ⟨i', rfl⟩ : ∃ i', i = i' + 1 := ⟨i - 1, by omega⟩
    replace hi : (t ++ [RenameEvent.awaitGraphReady, RenameEvent.respond]).get? i'
        = some (RenameEvent.dependentsQuery p) := hi
    rw [List.get?_append_right (by omega : t.length ≤ i')] at hi
    have hk : i' - t.length = 0 ∨ i' - t.length = 1 ∨ 2 ≤ i' - t.length := by omega
    rcases hk with hk | hk | hk
    · rw [hk] at hi
      simp at hi
    · rw [hk] at hi
      simp at hi
    · rw [List.get?_eq_none.mpr (by simpa using hk)] at hi
      exact Option.noConfusion hi

/-! ## Scanner lemmas -/

theorem indexOfAux_isPrefixOf {pat : List Char} :
    ∀ {s : List Char} {j : Nat}, indexOfAux pat s = some j → pat.isPrefixOf (s.drop j) := by
  intro s
  induction s with
  | nil =>
    intro j h
    unfold indexOfAux at h
    split at h
    · obtain rfl : 0 = j := Option.some.inj h
      have hp : pat = [] := List.isEmpty_iff.mp (by assumption)
      subst hp
      rw [List.drop_nil]
      rfl
    · exact Option.noConfusion h
  | cons c r ih =>
    intro j h
    unfold indexOfAux at h
    split at h
    · obtain rfl : 0 = j := Option.some.inj h
      simpa using (by assumption : pat.isPrefixOf (c :: r))
    · obtain ⟨j', hj', rfl⟩ := Option.map_eq_some'.mp h
      exact ih hj'

theorem indexOfFrom_isPrefixOf {l pat : List Char} {i j : Nat}
    (h : indexOfFrom l pat i = some j) : i ≤ j ∧ pat.isPrefixOf (l.drop j) := by
  obtain ⟨j', hj', rfl⟩ := Option.map_eq_some'.mp h
  refine ⟨by omega, ?_⟩
  have := indexOfAux_isPrefixOf hj'
  rwa [List.drop_drop, Nat.add_comm] at this

theorem substrAt_lt_length {l pat : List Char} {p : Nat}
    (hne : pat ≠ []) (h : substrAt l p pat) : p < l.length := by
  unfold substrAt at h
  rw [List.isPrefixOf_iff_prefix] at h
  have hlen := h.length_le
  rw [List.length_drop] at hlen
  rcases pat with _ | ⟨c, r⟩
  · exact absurd rfl hne
  · simp only [List.length_cons] at hlen
    omega

theorem nextKeyword_spec {l : List Char} {i k : Nat} {kw : List Char}
    (h : nextKeyword l i = some (k, kw)) :
    (kw = importKw ∨ kw = exportKw) ∧ substrAt l k kw := by
  unfold nextKeyword at h
  cases hi : indexOfFrom l importKw i with
  | none =>
    cases he : indexOfFrom l exportKw i with
    | none => rw [hi, he] at h; exact Option.noConfusion h
    | some b =>
      rw [hi, he] at h
      obtain ⟨rfl, rfl⟩ : b = k ∧ exportKw = kw := by
        have := Option.some.inj h
        exact ⟨congrArg Prod.fst this, congrArg Prod.snd this⟩
      exact ⟨Or.inr rfl, (indexOfFrom_isPrefixOf he).2⟩
  | some a =>
    cases he : indexOfFrom l exportKw i with
    | none =>
      rw [hi, he] at h
      obtain ⟨rfl, rfl⟩ : a = k ∧ importKw = kw := by
        have := Option.some.inj h
        exact ⟨congrArg Prod.fst this, congrArg Prod.snd this⟩
      exact ⟨Or.inl rfl, (indexOfFrom_isPrefixOf hi).2⟩
    | some b =>
      rw [hi, he] at h
      dsimp only at h
      by_cases hab : a < b
      · rw [if_pos hab] at h
        obtain ⟨rfl, rfl⟩ : a = k ∧ importKw = kw := by
          have := Option.some.inj h
          exact ⟨congrArg Prod.fst this, congrArg Prod.snd this⟩
        exact ⟨Or.inl rfl, (indexOfFrom_isPrefixOf hi).2⟩
      · rw [if_neg hab] at h
        obtain ⟨rfl, rfl⟩ : b = k ∧ exportKw = kw := by
          have := Option.some.inj h
          exact ⟨congrArg Prod.fst this, congrArg Prod.snd this⟩
        exact ⟨Or.inr rfl, (indexOfFrom_isPrefixOf he).2⟩

theorem faiOuter_nil_of_inert (l : List Char)
    (h : ∀ p, p < l.length →
      (substrAt l p importKw → ¬ isRealKeyword l p importKw ∨ isInCommentOrString l p) ∧
      (substrAt l p exportKw → ¬ isRealKeyword l p exportKw ∨ isInCommentOrString l p)) :
    ∀ fuel i, faiOuter l fuel i = [] := by
  intro fuel
  induction fuel with
  | zero => intro i; rfl
  | succ fuel ih =>
    intro i
    unfold faiOuter
    cases hnk : nextKeyword l i with
    | none => rfl
    | some kk =>
      obtain ⟨kIdx, kw⟩ := kk
      obtain ⟨hkw, hsub⟩ := nextKeyword_spec hnk
      dsimp only at hkw hsub ⊢
      have hlt : kIdx < l.length := by
        rcases hkw with hkw | hkw <;> rw [hkw] at hsub <;>
          exact substrAt_lt_length (by decide) hsub
      have hskip : ¬ isRealKeyword l kIdx kw ∨ isInCommentOrString l kIdx := by
        rcases hkw with hkw | hkw
        · rw [hkw] at hsub ⊢
          exact (h kIdx hlt).1 hsub
        · rw [hkw] at hsub ⊢
          exact (h kIdx hlt).2 hsub
      rw [if_pos hskip]
      exact ih _

/-- C3: for every text in which the `import`/`export` keywords occur only
inside string/template literals or line/block comments (as the scanner's
`isInCommentOrString` classifies position), or only as part of a longer
word (rejected by `isRealKeyword`), `findAllImports` returns the empty
list of matches. -/
theorem findAllImports_nil_of_keywords_inert (l : List Char)
    (h : ∀ p, p < l.length →
      (substrAt l p importKw → ¬ isRealKeyword l p importKw ∨ isInCommentOrString l p) ∧
      (substrAt l p exportKw → ¬ isRealKeyword l p exportKw ∨ isInCommentOrString l p)) :
    findAllImports l = [] :=
  faiOuter_nil_of_inert l h (l.length + 1) 0

/-- Witness for C3: a text whose `import` occurs in a line comment, whose
`export` occurs inside a string literal, and which contains the partial
word `importantThing`. -/
theorem findAllImports_nil_of_keywords_inert_witness :
    (∀ p, p < ("// import 'a'\nlet s = \"export {x} from 'y'\"\nconst importantThing = 1".toList).length →
      (substrAt ("// import 'a'\nlet s = \"export {x} from 'y'\"\nconst importantThing = 1".toList) p importKw →
        ¬ isRealKeyword ("// import 'a'\nlet s = \"export {x} from 'y'\"\nconst importantThing = 1".toList) p importKw
        ∨ isInCommentOrString ("// import 'a'\nlet s = \"export {x} from 'y'\"\nconst importantThing = 1".toList) p) ∧
      (substrAt ("// import 'a'\nlet s = \"export {x} from 'y'\"\nconst importantThing = 1".toList) p exportKw →
        ¬ isRealKeyword ("// import 'a'\nlet s = \"export {x} from 'y'\"\nconst importantThing = 1".toList) p exportKw
        ∨ isInCommentOrString ("// import 'a'\nlet s = \"export {x} from 'y'\"\nconst importantThing = 1".toList) p)) ∧
    findAllImports ("// import 'a'\nlet s = \"export {x} from 'y'\"\nconst importantThing = 1".toList) = [] :=
  ⟨by decide,
   findAllImports_nil_of_keywords_inert
     ("// import 'a'\nlet s = \"export {x} from 'y'\"\nconst importantThing = 1".toList)
     (by decide)⟩

theorem specEndIdx_stop (q : Char) :
    ∀ (n : Nat) (s : List Char), s.length ≤ n → specEndIdx q s < s.length →
      s.get? (specEndIdx q s) = some q := by
  intro n
  induction n with
  | zero =>
    intro s hn hlt
    omega
  | succ n ih =>
    intro s hn hlt
    rcases s with _ | ⟨c, r⟩
    · simp [specEndIdx] at hlt
    · unfold specEndIdx at hlt ⊢
      by_cases hq : c = q
      · rw [if_pos hq]
        simpa using hq
      · rw [if_neg hq] at hlt ⊢
        by_cases hb : c = '\\'
        · rw [if_pos hb] at hlt ⊢
          rcases r with _ | ⟨x, r2⟩
          · simp at hlt
          · simp only [List.length_cons] at hlt hn
            have hv : specEndIdx q r2 < r2.length := by omega
            have hr := ih r2 (by omega) hv
            show (c :: x :: r2).get? (2 + specEndIdx q r2) = some q
            rw [Nat.add_comm 2 (specEndIdx q r2)]
            show (c :: x :: r2).get? (specEndIdx q r2 + 1 + 1) = some q
            rw [List.get?_cons_succ, List.get?_cons_succ]
            exact hr
        · rw [if_neg hb] at hlt ⊢
          simp only [List.length_cons] at hlt hn
          have hv : specEndIdx q r < r.length := by omega
          have hr := ih r (by omega) hv
          show (c :: r).get? (1 + specEndIdx q r) = some q
          rw [Nat.add_comm 1 (specEndIdx q r)]
          rw [List.get?_cons_succ]
          exact hr

theorem charD_eq_getElem {l : List Char} {i : Nat} (hi : i < l.length) :
    charD l i = l[i] := by
  unfold charD
  rw [List.getD_eq_getElem?_getD, List.getElem?_eq_getElem hi]
  rfl

theorem slice_quote {l : List Char} {i : Nat} (hi : i < l.length)
    (hstop : specEndIdx (charD l i) (l.drop (i + 1)) < (l.drop (i + 1)).length) :
    seg l i (i + 1 + specEndIdx (charD l i) (l.drop (i + 1)) + 1)
      = charD l i :: (seg l (i + 1) (i + 1 + specEndIdx (charD l i) (l.drop (i + 1)))
        ++ [charD l i]) := by
  set q := charD l i with hq
  set s := l.drop (i + 1) with hs
  set k := specEndIdx q s with hk
  have h1 : seg l i (i + 1 + k + 1) = (l.drop i).take (k + 2) := by
    unfold seg
    congr 1
    omega
  have h2 : l.drop i = q :: s := by
    rw [List.drop_eq_getElem_cons hi, hq, hs, charD_eq_getElem hi]
  have h3 : seg l (i + 1) (i + 1 + k) = s.take k := by
    unfold seg
    rw [← hs]
    congr 1
    omega
  rw [h1, h2, h3]
  have h4 : (q :: s).take (k + 2) = q :: s.take (k + 1) := rfl
  rw [h4, List.take_succ]
  have h5 : s[k]? = some q := by
    rw [← List.get?_eq_getElem?]
    exact specEndIdx_stop q s.length s le_rfl hstop
  rw [h5]
  rfl

theorem captureSpec_slice {l : List Char} {i : Nat} {f p : Bool}
    (hi : i < l.length)
    (hq : charD l i = '\'' ∨ charD l i = '"')
    (hbound : (captureSpec l i f p).1.offset + (captureSpec l i f p).1.length ≤ l.length) :
    sliceReproduces l (captureSpec l i f p).1 := by
  unfold captureSpec at hbound ⊢
  simp only at hbound ⊢
  set k := specEndIdx (charD l i) (l.drop (i + 1)) with hk
  have hlen2 : i + 1 + k - (i + 1) + 2 = k + 2 := by omega
  rw [hlen2] at hbound
  have hstop : k < (l.drop (i + 1)).length := by
    rw [List.length_drop]
    omega
  constructor
  · simpa using hq
  · simp only
    have hsq := slice_quote hi hstop
    rw [← hk] at hsq
    rw [hlen2, show i + (k + 2) = i + 1 + k + 1 by omega, hsq]
    simp

set_option maxHeartbeats 1600000 in
theorem faiInner_some_slice {l : List Char} :
    ∀ (fuel i : Nat) (b : Int) (f p : Bool) (m : ImportMatch) (ni : Nat),
      faiInner l fuel i b f p = (some m, ni) →
      m.offset + m.length ≤ l.length → sliceReproduces l m := by
  intro fuel
  induction fuel with
  | zero =>
    intro i b f p m ni h
    unfold faiInner at h
    exact Option.noConfusion (congrArg Prod.fst h)
  | succ fuel ih =>
    intro i b f p m ni h hbound
    unfold faiInner at h
    by_cases hlen : i < l.length
    · rw [if_pos hlen] at h
      dsimp only at h
      split_ifs at h with h1 h2 h3 h4 h5 h6 h7 h8 h9 h10
      any_goals exact ih _ _ _ _ _ _ h hbound
      any_goals exact Option.noConfusion (congrArg Prod.fst h)
      -- the capture branch
      have hm : (captureSpec l i f p).1 = m := by
        have := congrArg Prod.fst h
        exact Option.some.inj this
      rw [← hm] at hbound ⊢
      exact captureSpec_slice hlen h8 hbound
    · rw [if_neg hlen] at h
      exact Option.noConfusion (congrArg Prod.fst h)

theorem faiStep_some_slice {l : List Char} {kIdx : Nat} {kw : List Char}
    {m : ImportMatch} {ni : Nat} (h : faiStep l kIdx kw = (some m, ni))
    (hbound : m.offset + m.length ≤ l.length) : sliceReproduces l m := by
  unfold faiStep at h
  exact faiInner_some_slice _ _ _ _ _ _ _ h hbound

theorem faiOuter_slice {l : List Char} :
    ∀ (fuel i : Nat) (m : ImportMatch), m ∈ faiOuter l fuel i →
      m.offset + m.length ≤ l.length → sliceReproduces l m := by
  intro fuel
  induction fuel with
  | zero =>
    intro i m hm
    simp [faiOuter] at hm
  | succ fuel ih =>
    intro i m hm hbound
    unfold faiOuter at hm
    cases hnk : nextKeyword l i with
    | none => rw [hnk] at hm; simp at hm
    | some kk =>
      obtain ⟨kIdx, kw⟩ := kk
      rw [hnk] at hm
      dsimp only at hm
      split_ifs at hm with hskip
      · exact ih _ m hm hbound
      · rcases hfi : faiStep l kIdx kw with ⟨om, ni⟩
        rw [hfi] at hm
        cases om with
        | some m2 =>
          simp only [List.mem_cons] at hm
          rcases hm with rfl | hm
          · exact faiStep_some_slice hfi hbound
          · exact ih _ m hm hbound
        | none => exact ih _ m hm hbound

/-- C4 (amended): for every `ImportMatch` whose token lies inside the
text (`offset + length ≤ text.length`, i.e. the closing quote is
present), slicing `text[offset, offset+length]` reproduces the literal
specifier token including both quote characters; the scanner classifies
`import './a.civet'` as side-effect and `import {x} from './a.civet'` as
`from`, and for both the slice reproduces the quoted specifier text
exactly. -/
theorem scanner_slice_and_classification :
    (∀ (l : List Char) (m : ImportMatch), m ∈ findAllImports l →
      m.offset + m.length ≤ l.length → sliceReproduces l m) ∧
    findAllImportsS "import './a.civet'" = [⟨"./a.civet".toList, 7, 11, ImpKind.sideEffect⟩] ∧
    findAllImportsS "import {x} from './a.civet'" = [⟨"./a.civet".toList, 16, 11, ImpKind.fromKind⟩] ∧
    seg ("import './a.civet'".toList) 7 18 = "'./a.civet'".toList ∧
    seg ("import {x} from './a.civet'".toList) 16 27 = "'./a.civet'".toList := by
  refine ⟨?_, by decide, by decide, by decide, by decide⟩
  intro l m hm hbound
  exact faiOuter_slice _ _ m hm hbound

/-- Witness for C4's universally quantified part at the side-effect
example. -/
theorem scanner_slice_and_classification_witness :
    ∃ m, m ∈ findAllImportsS "import './a.civet'" ∧
      m.offset + m.length ≤ ("import './a.civet'".toList).length ∧
      sliceReproduces ("import './a.civet'".toList) m := by
  refine ⟨⟨"./a.civet".toList, 7, 11, ImpKind.sideEffect⟩, by decide, by decide, ?_⟩
  exact scanner_slice_and_classification.1 ("import './a.civet'".toList)
    ⟨"./a.civet".toList, 7, 11, ImpKind.sideEffect⟩ (by decide) (by decide)

/-- C4 counterexample: on the unterminated text `import './a` the scanner
returns a match whose slice cannot reproduce a token with both quote
characters, so the claim as stated (over every returned match) is
false. -/
theorem scanner_slice_counterexample :
    ¬ (∀ (m : ImportMatch), m ∈ findAllImportsS "import './a" →
        sliceReproduces ("import './a".toList) m) := by
  intro h
  have hs := h ⟨"./a".toList, 7, 5, ImpKind.sideEffect⟩ (by decide)
  exact absurd hs.2 (by decide)

end Civet
